import Mathlib

/-!
Verification development for the `cross_versioning` repository.

Each Python function named in a claim is given a shallow embedding as an
executable Lean definition, translated from the source under `src/`.
File-system access, subprocess execution and the external transformation
service are modelled as explicit oracle parameters; everything the claims
quantify over is represented faithfully (lists keep Python ordering,
optional values model `None`, `Except` models raised exceptions).
-/

namespace CrossVersioning

/-! ## Dependency scheduler (`src/dependency_analyzer.py`)

`DependencyAnalyzer.dependency_graph` is a Python `dict` mapping each file
path to its list of dependency paths.  A `dict` preserves insertion order
and has pairwise-distinct keys, so it is embedded as an association list
whose key list is `Nodup` where a theorem needs that invariant. -/

abbrev Graph := List (String × List String)

/-- The file paths (dict keys) of a dependency graph, in insertion order. -/
def keys (g : Graph) : List String := g.map Prod.fst

/-- `graph[node]` lookup: the dependency list recorded for `n`
(first matching entry; `[]` when absent, mirroring `dict.get(n, [])`
as used by `get_direct_dependencies`). -/
def depsOf (g : Graph) (n : String) : List String :=
  match g.find? (fun p => p.1 == n) with
  | some p => p.2
  | none => []

/-- Python string `<`: lexicographic comparison by code point. -/
def charListLt : List Char → List Char → Bool
  | [], [] => false
  | [], _ :: _ => true
  | _ :: _, [] => false
  | a :: as, b :: bs => if a < b then true else if b < a then false else charListLt as bs

/-- Python string `<=` (used implicitly by `sorted`): `a <= b ↔ ¬ b < a`. -/
def pyStrLe (a b : String) : Bool := !(charListLt b.toList a.toList)

/-- Stable insertion of a string into a `pyStrLe`-sorted list. -/
def insertSorted (a : String) : List String → List String
  | [] => [a]
  | b :: rest => if pyStrLe a b then a :: b :: rest else b :: insertSorted a rest

/-- Python `list.sort()` / `sorted()` on path strings.  Python sorts
strings by code-point lexicographic order; because equal strings are
indistinguishable, the sorted output is the unique `pyStrLe`-sorted
permutation, so stable insertion sort computes exactly the same list as
Python's (stable) sort. -/
def sortStrings : List String → List String
  | [] => []
  | a :: rest => insertSorted a (sortStrings rest)

theorem insertSorted_perm (a : String) (l : List String) :
    (insertSorted a l).Perm (a :: l) := by
  induction l with
  | nil => simp [insertSorted]
  | cons b rest ih =>
    simp only [insertSorted]
    by_cases h : pyStrLe a b = true
    · simp [h]
    · simp only [h, if_false]
      exact (List.Perm.cons b ih).trans (List.Perm.swap a b rest)

theorem sortStrings_perm (l : List String) : (sortStrings l).Perm l := by
  induction l with
  | nil => simp [sortStrings]
  | cons a rest ih =>
    exact (insertSorted_perm a (sortStrings rest)).trans (ih.cons a)

theorem length_sortStrings (l : List String) :
    (sortStrings l).length = l.length :=
  (sortStrings_perm l).length_eq

/-- One pass of the inner loop of `_topological_sort` (lines 280-288):
for every entry of the working graph, in key order, remove `node` from its
dependency list (`list.remove`, i.e. first occurrence) and collect the keys
whose dependency list just became empty, in key order (they are appended to
`no_deps`).  Returns the updated working graph and the newly freed keys. -/
def removeDepFromAll (node : String) : Graph → Graph × List String
  | [] => ([], [])
  | (k, ds) :: rest =>
    let tail := removeDepFromAll node rest
    if node ∈ ds then
      let ds' := ds.erase node
      ((k, ds') :: tail.1, (if ds'.isEmpty then [k] else []) ++ tail.2)
    else
      ((k, ds) :: tail.1, tail.2)

/-- Total number of recorded dependencies; the loop measure. -/
def graphWeight (g : Graph) : Nat := (g.map (fun p => p.2.length)).sum

theorem removeDepFromAll_measure (node : String) (g : Graph) :
    graphWeight (removeDepFromAll node g).1 + (removeDepFromAll node g).2.length
      ≤ graphWeight g := by
  induction g with
  | nil => simp [removeDepFromAll, graphWeight]
  | cons p rest ih =>
    obtain ⟨k, ds⟩ := p
    by_cases h : node ∈ ds
    · have hlen : (ds.erase node).length + 1 = ds.length :=
        List.length_erase_add_one h
      by_cases he : ds.erase node = []
      · simp only [removeDepFromAll, if_pos h, graphWeight, List.map_cons,
          List.sum_cons, he, List.isEmpty_nil, if_true, List.length_append,
          List.singleton_append, List.length_cons, List.length_nil] at *
        omega
      · have he' : (ds.erase node).isEmpty = false := by
          simpa [List.isEmpty_iff] using he
        simp only [removeDepFromAll, if_pos h, graphWeight, List.map_cons,
          List.sum_cons, he', Bool.false_eq_true, if_false, List.nil_append,
          List.length_append, List.length_cons] at *
        omega
    · simp only [removeDepFromAll, if_neg h, graphWeight, List.map_cons,
        List.sum_cons] at *
      omega

/-- The `while no_deps:` loop of `_topological_sort` (lines 272-288).
Each iteration sorts the pending list (`no_deps.sort()`), pops its head
(`no_deps.pop(0)`), appends it to the result, and removes it from every
dependency list, queueing entries that became dependency-free.  Returns the
final result list together with the final working graph (which the function
inspects afterwards for circular dependencies). -/
def kahnLoop (noDeps : List String) (g : Graph) (acc : List String) :
    List String × Graph :=
  match h : sortStrings noDeps with
  | [] => (acc, g)
  | node :: rest =>
    let step := removeDepFromAll node g
    kahnLoop (rest ++ step.2) step.1 (acc ++ [node])
termination_by noDeps.length + graphWeight g
decreasing_by
  have hlen : (sortStrings noDeps).length = noDeps.length :=
    length_sortStrings noDeps
  rw [h] at hlen
  have hm := removeDepFromAll_measure node g
  simp only [List.length_cons] at hlen
  simp only [List.length_append]
  omega

/-- Initial pending list and main loop of `_topological_sort`
(lines 263-288): start from the keys whose dependency list is empty. -/
def kahnMain (g : Graph) : List String × Graph :=
  kahnLoop ((g.filter (fun p => p.2.isEmpty)).map Prod.fst) g []

/-- Keys left with a nonempty dependency list after the main loop
(lines 290-291): the circular-dependency remainder. -/
def cyclicRemainder (g : Graph) : List String :=
  ((kahnMain g).2.filter (fun p => !p.2.isEmpty)).map Prod.fst

/-- `DependencyAnalyzer._topological_sort` (lines 255-303): Kahn's algorithm
with alphabetical tie-breaking; unresolvable (cyclic) files are appended at
the end in sorted order. -/
def topologicalSort (g : Graph) : List String :=
  (kahnMain g).1 ++ sortStrings (cyclicRemainder g)

theorem depsOf_cons (k' : String) (ds : List String) (rest : Graph) (k : String) :
    depsOf ((k', ds) :: rest) k = if k' = k then ds else depsOf rest k := by
  by_cases h : k' = k
  · simp [depsOf, List.find?_cons, h]
  · simp [depsOf, List.find?_cons, h]

theorem keys_removeDepFromAll (n : String) (g : Graph) :
    keys (removeDepFromAll n g).1 = keys g := by
  induction g with
  | nil => simp [removeDepFromAll, keys]
  | cons p rest ih =>
    obtain ⟨k, ds⟩ := p
    by_cases h : n ∈ ds
    · simp only [removeDepFromAll, if_pos h, keys, List.map_cons] at *
      rw [ih]
    · simp only [removeDepFromAll, if_neg h, keys, List.map_cons] at *
      rw [ih]

theorem depsOf_removeDepFromAll (n : String) (g : Graph) (k : String) :
    depsOf (removeDepFromAll n g).1 k = (depsOf g k).erase n := by
  induction g with
  | nil => simp [removeDepFromAll, depsOf]
  | cons p rest ih =>
    obtain ⟨k', ds⟩ := p
    by_cases h : n ∈ ds
    · simp only [removeDepFromAll, if_pos h]
      rw [depsOf_cons, depsOf_cons]
      by_cases hk : k' = k
      · simp [hk]
      · simp [hk, ih]
    · simp only [removeDepFromAll, if_neg h]
      rw [depsOf_cons, depsOf_cons]
      by_cases hk : k' = k
      · simp [hk, List.erase_of_not_mem h]
      · simp [hk, ih]

theorem snd_removeDepFromAll_eq (n : String) (g : Graph) :
    (removeDepFromAll n g).2 =
      (g.filter (fun p => decide (n ∈ p.2) && (p.2.erase n).isEmpty)).map Prod.fst := by
  induction g with
  | nil => simp [removeDepFromAll]
  | cons p rest ih =>
    obtain ⟨k, ds⟩ := p
    by_cases h : n ∈ ds
    · by_cases he : (ds.erase n).isEmpty
      · simp [removeDepFromAll, h, he, ih, List.filter_cons]
      · simp [removeDepFromAll, h, he, ih, List.filter_cons]
    · simp [removeDepFromAll, h, ih, List.filter_cons]

theorem snd_removeDepFromAll_sublist (n : String) (g : Graph) :
    (removeDepFromAll n g).2.Sublist (keys g) := by
  rw [snd_removeDepFromAll_eq]
  exact (List.filter_sublist g).map Prod.fst

theorem mem_keys_of_mem {g : Graph} {a : String} {ds : List String}
    (h : (a, ds) ∈ g) : a ∈ keys g :=
  List.mem_map_of_mem Prod.fst h

theorem exists_of_mem_keys {g : Graph} {a : String} (h : a ∈ keys g) :
    ∃ ds, (a, ds) ∈ g := by
  obtain ⟨p, hp, hfst⟩ := List.mem_map.mp h
  exact ⟨p.2, by simpa [← hfst] using hp⟩

theorem depsOf_eq_of_mem {g : Graph} (hk : (keys g).Nodup) {a : String}
    {ds : List String} (h : (a, ds) ∈ g) : depsOf g a = ds := by
  induction g with
  | nil => cases h
  | cons p rest ih =>
    obtain ⟨k', ds'⟩ := p
    simp only [keys, List.map_cons, List.nodup_cons] at hk
    rcases List.mem_cons.mp h with heq | hmem
    · obtain ⟨h1, h2⟩ := Prod.mk.injEq .. ▸ heq
      injection heq with h1 h2
      subst h1; subst h2
      simp [depsOf_cons]
    · have hne : k' ≠ a := by
        intro he
        exact hk.1 (he ▸ mem_keys_of_mem hmem)
      rw [depsOf_cons, if_neg hne]
      exact ih hk.2 hmem

theorem mem_snd_removeDepFromAll {n : String} {g : Graph}
    (hk : (keys g).Nodup) {a : String} :
    a ∈ (removeDepFromAll n g).2 ↔
      a ∈ keys g ∧ n ∈ depsOf g a ∧ (depsOf g a).erase n = [] := by
  rw [snd_removeDepFromAll_eq]
  constructor
  · intro h
    obtain ⟨p, hp, hfst⟩ := List.mem_map.mp h
    obtain ⟨hmem, hcond⟩ := List.mem_filter.mp hp
    obtain ⟨k', ds⟩ := p
    simp only at hfst
    subst hfst
    have hdeps := depsOf_eq_of_mem hk hmem
    simp only [Bool.and_eq_true, decide_eq_true_eq, List.isEmpty_iff] at hcond
    exact ⟨mem_keys_of_mem hmem, hdeps ▸ hcond.1, hdeps ▸ hcond.2⟩
  · rintro ⟨hkeys, hmem, herase⟩
    obtain ⟨ds, hds⟩ := exists_of_mem_keys hkeys
    have hdeps := depsOf_eq_of_mem hk hds
    refine List.mem_map.mpr ⟨(a, ds), List.mem_filter.mpr ⟨hds, ?_⟩, rfl⟩
    simp only [Bool.and_eq_true, decide_eq_true_eq, List.isEmpty_iff]
    exact ⟨hdeps ▸ hmem, hdeps ▸ herase⟩

theorem erase_eq_nil {l : List String} {a : String} (h : l.erase a = []) :
    l = [] ∨ l = [a] := by
  cases l with
  | nil => exact Or.inl rfl
  | cons b t =>
    by_cases hb : b = a
    · subst hb
      rw [List.erase_cons_head] at h
      exact Or.inr (by rw [h])
    · rw [List.erase_cons_tail (by simpa using hb)] at h
      cases h

theorem charListLt_asymm :
    ∀ x y : List Char, charListLt x y = true → charListLt y x = false
  | [], [], h => by simp [charListLt] at h
  | [], _ :: _, _ => by simp [charListLt]
  | _ :: _, [], h => by simp [charListLt] at h
  | a :: as, b :: bs, h => by
    by_cases hab : a < b
    · have hba : ¬ b < a := lt_asymm hab
      simp [charListLt, hab, hba]
    · by_cases hba : b < a
      · simp [charListLt, hab, hba] at h
      · simp only [charListLt, hab, hba, if_false] at h ⊢
        exact charListLt_asymm as bs h

theorem pyStrLe_total (a b : String) : pyStrLe a b = true ∨ pyStrLe b a = true := by
  cases hcb : charListLt b.toList a.toList with
  | false => exact Or.inl (by simp only [pyStrLe]; rw [hcb]; rfl)
  | true =>
    exact Or.inr (by simp only [pyStrLe]; rw [charListLt_asymm _ _ hcb]; rfl)

theorem charListLt_conn :
    ∀ x z : List Char, charListLt x z = true →
      ∀ y : List Char, charListLt x y = true ∨ charListLt y z = true
  | [], [], h, _ => by simp [charListLt] at h
  | _ :: _, [], h, _ => by simp [charListLt] at h
  | [], _ :: _, _, [] => Or.inr (by simp [charListLt])
  | [], _ :: _, _, _ :: _ => Or.inl (by simp [charListLt])
  | a :: as, c :: cs, h, [] => Or.inr (by simp [charListLt])
  | a :: as, c :: cs, h, b :: bs => by
    by_cases hac : a < c
    · rcases lt_trichotomy a b with hab | hab | hab
      · exact Or.inl (by simp [charListLt, hab])
      · subst hab
        exact Or.inr (by simp [charListLt, hac])
      · have hbc : b < c := lt_trans hab hac
        exact Or.inr (by simp [charListLt, hbc])
    · by_cases hca : c < a
      · simp [charListLt, hac, hca] at h
      · have hacEq : a = c := le_antisymm (not_lt.mp hca) (not_lt.mp hac)
        subst hacEq
        simp only [charListLt, hac, hca, if_false] at h
        rcases lt_trichotomy a b with hab | hab | hab
        · exact Or.inl (by simp [charListLt, hab])
        · subst hab
          rcases charListLt_conn as cs h bs with h' | h'
          · exact Or.inl (by simp [charListLt, h'])
          · exact Or.inr (by simp [charListLt, h'])
        · exact Or.inr (by simp [charListLt, hab])

theorem pyStrLe_trans {a b c : String}
    (h1 : pyStrLe a b = true) (h2 : pyStrLe b c = true) : pyStrLe a c = true := by
  simp only [pyStrLe, Bool.not_eq_true', Bool.not_eq_true] at h1 h2 ⊢
  by_contra h
  rw [Bool.not_eq_false] at h
  rcases charListLt_conn c.toList a.toList h b.toList with h' | h'
  · rw [h'] at h2; cases h2
  · rw [h'] at h1; cases h1

theorem mem_insertSorted {a x : String} {l : List String} :
    x ∈ insertSorted a l ↔ x = a ∨ x ∈ l := by
  rw [(insertSorted_perm a l).mem_iff, List.mem_cons]

theorem insertSorted_sorted {a : String} {l : List String}
    (h : l.Sorted (fun a b => pyStrLe a b = true)) :
    (insertSorted a l).Sorted (fun a b => pyStrLe a b = true) := by
  induction l with
  | nil => simp [insertSorted]
  | cons b rest ih =>
    rw [List.sorted_cons] at h
    obtain ⟨hb, hrest⟩ := h
    by_cases hab : pyStrLe a b = true
    · simp only [insertSorted]
      rw [if_pos hab, List.sorted_cons]
      refine ⟨?_, List.sorted_cons.mpr ⟨hb, hrest⟩⟩
      intro x hx
      rcases List.mem_cons.mp hx with rfl | hx
      · exact hab
      · exact pyStrLe_trans hab (hb x hx)
    · simp only [insertSorted]
      rw [if_neg hab, List.sorted_cons]
      refine ⟨?_, ih hrest⟩
      intro x hx
      rcases mem_insertSorted.mp hx with rfl | hx
      · rcases pyStrLe_total x b with h' | h'
        · exact absurd h' hab
        · exact h'
      · exact hb x hx

theorem sortStrings_sorted (l : List String) :
    (sortStrings l).Sorted (fun a b => pyStrLe a b = true) := by
  induction l with
  | nil => simp [sortStrings]
  | cons a rest ih => exact insertSorted_sorted ih

theorem kahnLoop_eq_nil {noDeps : List String} {g : Graph} {acc : List String}
    (h : sortStrings noDeps = []) : kahnLoop noDeps g acc = (acc, g) := by
  rw [kahnLoop]
  split <;> simp_all

theorem kahnLoop_eq_cons {noDeps : List String} {g : Graph} {acc : List String}
    {node : String} {rest : List String}
    (h : sortStrings noDeps = node :: rest) :
    kahnLoop noDeps g acc =
      kahnLoop (rest ++ (removeDepFromAll node g).2)
        (removeDepFromAll node g).1 (acc ++ [node]) := by
  rw [kahnLoop]
  split <;> simp_all

/-- Loop invariant for `kahnLoop`, relative to the starting graph `g₀`:
the working graph keeps the same keys, the emitted list and the pending
list hold distinct keys, and a key has an empty working dependency list
exactly when it has been emitted or is pending. -/
structure KahnInv (g₀ : Graph) (noDeps : List String) (g : Graph)
    (acc : List String) : Prop where
  keysEq : keys g = keys g₀
  nodup : (acc ++ noDeps).Nodup
  accSub : ∀ a ∈ acc, a ∈ keys g₀
  ndSub : ∀ a ∈ noDeps, a ∈ keys g₀
  emptyIff : ∀ k ∈ keys g₀, (depsOf g k = [] ↔ (k ∈ acc ∨ k ∈ noDeps))

theorem kahnInv_step (g₀ : Graph) (hk₀ : (keys g₀).Nodup)
    {noDeps : List String} {g : Graph} {acc : List String}
    {node : String} {rest : List String}
    (inv : KahnInv g₀ noDeps g acc)
    (hsort : sortStrings noDeps = node :: rest) :
    KahnInv g₀ (rest ++ (removeDepFromAll node g).2)
      (removeDepFromAll node g).1 (acc ++ [node]) := by
  have hkg : (keys g).Nodup := inv.keysEq ▸ hk₀
  have hperm : (node :: rest).Perm noDeps := by
    rw [← hsort]; exact sortStrings_perm noDeps
  have hnodeMem : node ∈ noDeps := hperm.subset (List.mem_cons_self node rest)
  have hrestSub : ∀ x ∈ rest, x ∈ noDeps := fun x hx =>
    hperm.subset (List.mem_cons_of_mem node hx)
  have hnodeKeys : node ∈ keys g₀ := inv.ndSub node hnodeMem
  have hnodeEmpty : depsOf g node = [] :=
    (inv.emptyIff node hnodeKeys).mpr (Or.inr hnodeMem)
  have hNmem : ∀ a ∈ (removeDepFromAll node g).2,
      a ∈ keys g₀ ∧ node ∈ depsOf g a ∧ (depsOf g a).erase node = [] := by
    intro a ha
    have := (mem_snd_removeDepFromAll hkg).mp ha
    exact ⟨inv.keysEq ▸ this.1, this.2.1, this.2.2⟩
  have hNfresh : ∀ a ∈ (removeDepFromAll node g).2, a ∉ acc ∧ a ∉ noDeps := by
    intro a ha
    obtain ⟨hks, hmem, _⟩ := hNmem a ha
    have hne : depsOf g a ≠ [] := fun he => by simp [he] at hmem
    have := inv.emptyIff a hks
    constructor
    · intro hacc; exact hne (this.mpr (Or.inl hacc))
    · intro hnd; exact hne (this.mpr (Or.inr hnd))
  refine ⟨?_, ?_, ?_, ?_, ?_⟩
  · rw [keys_removeDepFromAll]; exact inv.keysEq
  · -- (acc ++ [node]) ++ (rest ++ newly) is Nodup
    have h1 : (acc ++ node :: rest).Nodup :=
      (hperm.symm.append_left acc).nodup inv.nodup
    have hN : (removeDepFromAll node g).2.Nodup :=
      (snd_removeDepFromAll_sublist node g).nodup hkg
    have hassoc : (acc ++ [node]) ++ (rest ++ (removeDepFromAll node g).2)
        = (acc ++ node :: rest) ++ (removeDepFromAll node g).2 := by
      simp
    rw [hassoc, List.nodup_append]
    refine ⟨h1, hN, ?_⟩
    intro a ha hN'
    obtain ⟨hacc, hnd⟩ := hNfresh a hN'
    rcases List.mem_append.mp ha with h | h
    · exact hacc h
    · rcases List.mem_cons.mp h with h | h
      · exact hnd (h ▸ hnodeMem)
      · exact hnd (hrestSub a h)
  · intro a ha
    rcases List.mem_append.mp ha with h | h
    · exact inv.accSub a h
    · rcases List.mem_singleton.mp h with rfl
      exact hnodeKeys
  · intro a ha
    rcases List.mem_append.mp ha with h | h
    · exact inv.ndSub a (hrestSub a h)
    · exact (hNmem a h).1
  · intro k hks
    rw [depsOf_removeDepFromAll]
    constructor
    · intro herase
      by_cases hdk : depsOf g k = []
      · rcases (inv.emptyIff k hks).mp hdk with h | h
        · exact Or.inl (List.mem_append.mpr (Or.inl h))
        · have : k ∈ node :: rest := hperm.mem_iff.mpr h
          rcases List.mem_cons.mp this with rfl | h'
          · exact Or.inl (List.mem_append.mpr (Or.inr (List.mem_singleton.mpr rfl)))
          · exact Or.inr (List.mem_append.mpr (Or.inl h'))
      · rcases erase_eq_nil herase with h | h
        · exact absurd h hdk
        · have hkN : k ∈ (removeDepFromAll node g).2 := by
            rw [mem_snd_removeDepFromAll hkg]
            refine ⟨inv.keysEq.symm ▸ hks, ?_, herase⟩
            rw [h]; exact List.mem_singleton.mpr rfl
          exact Or.inr (List.mem_append.mpr (Or.inr hkN))
    · intro h
      rcases h with h | h
      · rcases List.mem_append.mp h with h | h
        · rw [(inv.emptyIff k hks).mpr (Or.inl h)]
          simp
        · rcases List.mem_singleton.mp h with rfl
          rw [hnodeEmpty]; simp
      · rcases List.mem_append.mp h with h | h
        · rw [(inv.emptyIff k hks).mpr (Or.inr (hrestSub k h))]
          simp
        · exact ((mem_snd_removeDepFromAll hkg).mp h).2.2

theorem mem_map_fst_filter {g : Graph} (hk : (keys g).Nodup)
    (pred : List String → Bool) (a : String) :
    a ∈ (g.filter (fun p => pred p.2)).map Prod.fst ↔
      a ∈ keys g ∧ pred (depsOf g a) = true := by
  constructor
  · intro h
    obtain ⟨p, hp, hfst⟩ := List.mem_map.mp h
    obtain ⟨hmem, hcond⟩ := List.mem_filter.mp hp
    obtain ⟨k', ds⟩ := p
    simp only at hfst
    subst hfst
    exact ⟨mem_keys_of_mem hmem, (depsOf_eq_of_mem hk hmem).symm ▸ hcond⟩
  · rintro ⟨hkeys, hcond⟩
    obtain ⟨ds, hds⟩ := exists_of_mem_keys hkeys
    exact List.mem_map.mpr ⟨(a, ds),
      List.mem_filter.mpr ⟨hds, (depsOf_eq_of_mem hk hds) ▸ hcond⟩, rfl⟩

theorem kahnInv_init (g : Graph) (hk : (keys g).Nodup) :
    KahnInv g ((g.filter (fun p => p.2.isEmpty)).map Prod.fst) g [] := by
  refine ⟨rfl, ?_, by simp, ?_, ?_⟩
  · simpa using ((List.filter_sublist g).map Prod.fst).nodup hk
  · intro a ha
    exact ((mem_map_fst_filter hk List.isEmpty a).mp ha).1
  · intro k hks
    constructor
    · intro hdk
      refine Or.inr ((mem_map_fst_filter hk List.isEmpty k).mpr ⟨hks, ?_⟩)
      simp [hdk]
    · rintro (h | h)
      · cases h
      · have := ((mem_map_fst_filter hk List.isEmpty k).mp h).2
        simpa [List.isEmpty_iff] using this

theorem kahnLoop_inv (g₀ : Graph) (hk₀ : (keys g₀).Nodup)
    (noDeps : List String) (g : Graph) (acc : List String) :
    KahnInv g₀ noDeps g acc →
      KahnInv g₀ [] (kahnLoop noDeps g acc).2 (kahnLoop noDeps g acc).1 := by
  induction noDeps, g, acc using kahnLoop.induct with
  | case1 noDeps g acc hsort =>
    intro inv
    have hnil : noDeps = [] := by
      have hlen := length_sortStrings noDeps
      rw [hsort] at hlen
      exact List.length_eq_zero.mp hlen.symm
    subst hnil
    rw [kahnLoop_eq_nil hsort]
    exact inv
  | case2 noDeps g acc node rest hsort step ih =>
    intro inv
    rw [kahnLoop_eq_cons hsort]
    exact ih (kahnInv_step g₀ hk₀ inv hsort)

theorem kahnMain_inv (g : Graph) (hk : (keys g).Nodup) :
    KahnInv g [] (kahnMain g).2 (kahnMain g).1 :=
  kahnLoop_inv g hk _ g [] (kahnInv_init g hk)

theorem mem_cyclicRemainder (g : Graph) (hk : (keys g).Nodup) (a : String) :
    a ∈ cyclicRemainder g ↔ a ∈ keys g ∧ depsOf (kahnMain g).2 a ≠ [] := by
  have inv := kahnMain_inv g hk
  have hkF : (keys (kahnMain g).2).Nodup := inv.keysEq ▸ hk
  unfold cyclicRemainder
  rw [mem_map_fst_filter hkF (fun ds => !ds.isEmpty) a]
  rw [inv.keysEq]
  simp [List.isEmpty_iff]

theorem cyclicRemainder_nodup (g : Graph) (hk : (keys g).Nodup) :
    (cyclicRemainder g).Nodup := by
  have inv := kahnMain_inv g hk
  have hkF : (keys (kahnMain g).2).Nodup := inv.keysEq ▸ hk
  exact ((List.filter_sublist (kahnMain g).2).map Prod.fst).nodup hkF

theorem topologicalSort_nodup (g : Graph) (hk : (keys g).Nodup) :
    (topologicalSort g).Nodup := by
  have inv := kahnMain_inv g hk
  have haccN : (kahnMain g).1.Nodup := by simpa using inv.nodup
  have hcycN : (sortStrings (cyclicRemainder g)).Nodup :=
    (sortStrings_perm (cyclicRemainder g)).symm.nodup (cyclicRemainder_nodup g hk)
  rw [topologicalSort, List.nodup_append]
  refine ⟨haccN, hcycN, ?_⟩
  intro a ha hcyc
  have hks : a ∈ keys g := inv.accSub a ha
  have hempty : depsOf (kahnMain g).2 a = [] :=
    (inv.emptyIff a hks).mpr (Or.inl ha)
  have : a ∈ cyclicRemainder g :=
    (sortStrings_perm (cyclicRemainder g)).subset hcyc
  exact ((mem_cyclicRemainder g hk a).mp this).2 hempty

theorem mem_topologicalSort (g : Graph) (hk : (keys g).Nodup) (a : String) :
    a ∈ topologicalSort g ↔ a ∈ keys g := by
  have inv := kahnMain_inv g hk
  rw [topologicalSort, List.mem_append]
  constructor
  · rintro (h | h)
    · exact inv.accSub a h
    · have := (sortStrings_perm (cyclicRemainder g)).subset h
      exact ((mem_cyclicRemainder g hk a).mp this).1
  · intro hks
    by_cases hdk : depsOf (kahnMain g).2 a = []
    · rcases (inv.emptyIff a hks).mp hdk with h | h
      · exact Or.inl h
      · cases h
    · refine Or.inr ?_
      rw [(sortStrings_perm (cyclicRemainder g)).mem_iff]
      exact (mem_cyclicRemainder g hk a).mpr ⟨hks, hdk⟩

theorem topologicalSort_perm (g : Graph) (hk : (keys g).Nodup) :
    (topologicalSort g).Perm (keys g) :=
  (List.perm_ext_iff_of_nodup (topologicalSort_nodup g hk) hk).mpr
    (mem_topologicalSort g hk)

theorem depsOf_eq_nil_of_not_mem {g : Graph} {k : String}
    (h : k ∉ keys g) : depsOf g k = [] := by
  induction g with
  | nil => rfl
  | cons p rest ih =>
    obtain ⟨k', ds⟩ := p
    simp only [keys, List.map_cons, List.mem_cons, not_or] at h
    rw [depsOf_cons, if_neg (fun he => h.1 he.symm)]
    exact ih (by simpa [keys] using h.2)

theorem depsOf_nodup {g : Graph} (hk : (keys g).Nodup)
    (hdn : ∀ p ∈ g, p.2.Nodup) (k : String) : (depsOf g k).Nodup := by
  by_cases hmem : k ∈ keys g
  · obtain ⟨ds, hds⟩ := exists_of_mem_keys hmem
    rw [depsOf_eq_of_mem hk hds]
    exact hdn (k, ds) hds
  · rw [depsOf_eq_nil_of_not_mem hmem]
    exact List.nodup_nil

/-- Strengthened invariant for the acyclic-ordering proof: additionally,
the working dependency lists are the original ones minus the already
emitted files, and every emitted file appears after all of its original
dependencies within the emitted list. -/
structure KahnOrd (g₀ : Graph) (noDeps : List String) (g : Graph)
    (acc : List String) : Prop where
  inv : KahnInv g₀ noDeps g acc
  depsFiltered : ∀ k ∈ keys g₀,
    depsOf g k = (depsOf g₀ k).filter (fun d => decide (d ∉ acc))
  ordered : ∀ A ∈ acc, ∀ B ∈ depsOf g₀ A, ∃ p q, acc = p ++ A :: q ∧ B ∈ p

theorem kahnOrd_step (g₀ : Graph) (hk₀ : (keys g₀).Nodup)
    (hdn : ∀ p ∈ g₀, p.2.Nodup)
    {noDeps : List String} {g : Graph} {acc : List String}
    {node : String} {rest : List String}
    (ord : KahnOrd g₀ noDeps g acc)
    (hsort : sortStrings noDeps = node :: rest) :
    KahnOrd g₀ (rest ++ (removeDepFromAll node g).2)
      (removeDepFromAll node g).1 (acc ++ [node]) := by
  have hperm : (node :: rest).Perm noDeps := by
    rw [← hsort]; exact sortStrings_perm noDeps
  have hnodeMem : node ∈ noDeps := hperm.subset (List.mem_cons_self node rest)
  have hnodeKeys : node ∈ keys g₀ := ord.inv.ndSub node hnodeMem
  have hnodeEmpty : depsOf g node = [] :=
    (ord.inv.emptyIff node hnodeKeys).mpr (Or.inr hnodeMem)
  refine ⟨kahnInv_step g₀ hk₀ ord.inv hsort, ?_, ?_⟩
  · intro k hks
    rw [depsOf_removeDepFromAll, ord.depsFiltered k hks]
    have hnd : ((depsOf g₀ k).filter (fun d => decide (d ∉ acc))).Nodup :=
      (depsOf_nodup hk₀ hdn k).filter _
    rw [List.Nodup.erase_eq_filter hnd node, List.filter_filter]
    apply List.filter_congr
    intro d _
    by_cases hdacc : d ∈ acc
    · simp [hdacc]
    · by_cases hdnode : d = node
      · simp [hdacc, hdnode]
      · simp [hdacc, hdnode]
  · intro A hA B hB
    rcases List.mem_append.mp hA with hA | hA
    · obtain ⟨p, q, hacc, hBp⟩ := ord.ordered A hA B hB
      exact ⟨p, q ++ [node], by rw [hacc]; simp, hBp⟩
    · rcases List.mem_singleton.mp hA with rfl
      have hfil : (depsOf g₀ A).filter (fun d => decide (d ∉ acc)) = [] := by
        rw [← ord.depsFiltered A hnodeKeys]
        exact hnodeEmpty
      have hBacc : B ∈ acc := by
        have := List.filter_eq_nil_iff.mp hfil B hB
        simpa using this
      exact ⟨acc, [], by simp, hBacc⟩

theorem kahnLoop_ord (g₀ : Graph) (hk₀ : (keys g₀).Nodup)
    (hdn : ∀ p ∈ g₀, p.2.Nodup)
    (noDeps : List String) (g : Graph) (acc : List String) :
    KahnOrd g₀ noDeps g acc →
      KahnOrd g₀ [] (kahnLoop noDeps g acc).2 (kahnLoop noDeps g acc).1 := by
  induction noDeps, g, acc using kahnLoop.induct with
  | case1 noDeps g acc hsort =>
    intro ord
    have hnil : noDeps = [] := by
      have hlen := length_sortStrings noDeps
      rw [hsort] at hlen
      exact List.length_eq_zero.mp hlen.symm
    subst hnil
    rw [kahnLoop_eq_nil hsort]
    exact ord
  | case2 noDeps g acc node rest hsort step ih =>
    intro ord
    rw [kahnLoop_eq_cons hsort]
    exact ih (kahnOrd_step g₀ hk₀ hdn ord hsort)

theorem kahnMain_ord (g : Graph) (hk : (keys g).Nodup)
    (hdn : ∀ p ∈ g, p.2.Nodup) :
    KahnOrd g [] (kahnMain g).2 (kahnMain g).1 := by
  apply kahnLoop_ord g hk hdn
  refine ⟨kahnInv_init g hk, ?_, ?_⟩
  · intro k _
    simp
  · intro A hA
    cases hA

theorem cyclicRemainder_eq_nil (g : Graph) (rank : String → Nat)
    (hk : (keys g).Nodup) (hdn : ∀ p ∈ g, p.2.Nodup)
    (hclosed : ∀ p ∈ g, ∀ b ∈ p.2, b ∈ keys g)
    (hrank : ∀ p ∈ g, ∀ b ∈ p.2, rank b < rank p.1) :
    cyclicRemainder g = [] := by
  have ord := kahnMain_ord g hk hdn
  have hstep : ∀ k ∈ cyclicRemainder g,
      ∃ d ∈ cyclicRemainder g, rank d < rank k := by
    intro k hkR
    obtain ⟨hks, hne⟩ := (mem_cyclicRemainder g hk k).mp hkR
    rw [ord.depsFiltered k hks] at hne
    have : ∃ d ∈ depsOf g k, decide (d ∉ (kahnMain g).1) = true := by
      by_contra hcon
      push_neg at hcon
      exact hne (List.filter_eq_nil_iff.mpr hcon)
    obtain ⟨d, hd, hdnotin⟩ := this
    have hdacc : d ∉ (kahnMain g).1 := by simpa using hdnotin
    obtain ⟨ds, hds⟩ := exists_of_mem_keys hks
    have hdeq := depsOf_eq_of_mem hk hds
    have hdks : d ∈ keys g := hclosed (k, ds) hds d (hdeq ▸ hd)
    have hdne : depsOf (kahnMain g).2 d ≠ [] := by
      intro hnil
      rcases (ord.inv.emptyIff d hdks).mp hnil with h | h
      · exact hdacc h
      · cases h
    refine ⟨d, (mem_cyclicRemainder g hk d).mpr ⟨hdks, hdne⟩, ?_⟩
    exact hrank (k, ds) hds d (hdeq ▸ hd)
  by_contra hne
  obtain ⟨c, hc⟩ := List.exists_mem_of_ne_nil _ hne
  have key : ∀ n, ∀ k ∈ cyclicRemainder g, rank k < n → False := by
    intro n
    induction n with
    | zero => intro k _ hlt; omega
    | succ n ih =>
      intro k hkR hlt
      obtain ⟨d, hdR, hdlt⟩ := hstep k hkR
      exact ih d hdR (by omega)
  exact key (rank c + 1) c hc (Nat.lt_succ_self _)

/-- Claim C1: for every acyclic dependency graph (acyclicity expressed by
a rank function decreasing along edges, the standard finite-graph
formulation; keys distinct as in a Python `dict`, dependency lists
duplicate-free and pointing at graph keys, as `analyze_repository` builds
them), the order returned by `_topological_sort` places every file after
all files it depends on: if `B` is in the dependency list of `A`, then `B`
appears strictly before `A` in the returned list. -/
theorem topologicalSort_respects_dependencies
    (g : Graph) (rank : String → Nat)
    (hk : (keys g).Nodup)
    (hdn : ∀ p ∈ g, p.2.Nodup)
    (hclosed : ∀ p ∈ g, ∀ b ∈ p.2, b ∈ keys g)
    (hrank : ∀ p ∈ g, ∀ b ∈ p.2, rank b < rank p.1) :
    ∀ A ∈ keys g, ∀ B ∈ depsOf g A,
      ∃ p q, topologicalSort g = p ++ A :: q ∧ B ∈ p := by
  intro A hA B hB
  have ord := kahnMain_ord g hk hdn
  have hRnil := cyclicRemainder_eq_nil g rank hk hdn hclosed hrank
  have hAacc : A ∈ (kahnMain g).1 := by
    by_cases hdA : depsOf (kahnMain g).2 A = []
    · rcases (ord.inv.emptyIff A hA).mp hdA with h | h
      · exact h
      · cases h
    · have : A ∈ cyclicRemainder g := (mem_cyclicRemainder g hk A).mpr ⟨hA, hdA⟩
      rw [hRnil] at this
      cases this
  obtain ⟨p, q, hacc, hBp⟩ := ord.ordered A hAacc B hB
  refine ⟨p, q ++ sortStrings (cyclicRemainder g), ?_, hBp⟩
  rw [topologicalSort, hacc]
  simp

/-- Claim C2: on every dependency graph, cyclic or not, `_topological_sort`
is a total function (its loop is proved terminating by the decreasing
measure `|no_deps| + Σ |deps|`), its output lists every file of the graph
exactly once and nothing else, and the files left with a nonzero remaining
dependency count after the main loop are appended at the end in
lexicographic (Python string) order. -/
theorem topologicalSort_total_exactly_once (g : Graph) (hk : (keys g).Nodup) :
    (∀ f ∈ keys g, (topologicalSort g).count f = 1) ∧
    (∀ f ∈ topologicalSort g, f ∈ keys g) ∧
    topologicalSort g = (kahnMain g).1 ++ sortStrings (cyclicRemainder g) ∧
    (sortStrings (cyclicRemainder g)).Sorted (fun a b => pyStrLe a b = true) := by
  refine ⟨?_, ?_, rfl, sortStrings_sorted _⟩
  · intro f hf
    rw [(topologicalSort_perm g hk).count_eq]
    exact List.count_eq_one_of_mem hk hf
  · intro f hf
    exact (mem_topologicalSort g hk f).mp hf

theorem topologicalSort_respects_dependencies_witness :
    ∃ p q, topologicalSort [("b.py", ["a.py"]), ("a.py", [])]
        = p ++ "b.py" :: q ∧ "a.py" ∈ p :=
  topologicalSort_respects_dependencies
    [("b.py", ["a.py"]), ("a.py", [])]
    (fun s => if s = "b.py" then 1 else 0)
    (by decide) (by decide) (by decide) (by decide)
    "b.py" (by decide) "a.py" (by decide)

theorem topologicalSort_total_exactly_once_witness :
    (∀ f ∈ keys [("a.py", ["b.py"]), ("b.py", ["a.py"]), ("c.py", [])],
      (topologicalSort [("a.py", ["b.py"]), ("b.py", ["a.py"]), ("c.py", [])]).count f = 1) ∧
    (∀ f ∈ topologicalSort [("a.py", ["b.py"]), ("b.py", ["a.py"]), ("c.py", [])],
      f ∈ keys [("a.py", ["b.py"]), ("b.py", ["a.py"]), ("c.py", [])]) ∧
    topologicalSort [("a.py", ["b.py"]), ("b.py", ["a.py"]), ("c.py", [])]
      = (kahnMain [("a.py", ["b.py"]), ("b.py", ["a.py"]), ("c.py", [])]).1
        ++ sortStrings (cyclicRemainder [("a.py", ["b.py"]), ("b.py", ["a.py"]), ("c.py", [])]) ∧
    (sortStrings (cyclicRemainder [("a.py", ["b.py"]), ("b.py", ["a.py"]), ("c.py", [])])).Sorted
      (fun a b => pyStrLe a b = true) :=
  topologicalSort_total_exactly_once
    [("a.py", ["b.py"]), ("b.py", ["a.py"]), ("c.py", [])] (by decide)

/-! ## Import resolution (`src/dependency_analyzer.py`, lines 127-238)

Absolute POSIX paths are embedded as lists of components (the program
computes `os.path.abspath` paths rooted at `repo_root`); the string form
of such a path, used by the source's `str.startswith` safety check, is
recovered by `pathStr`.  The file system is an oracle `isFile`. -/

abbrev Comp := List Char

abbrev AbsPath := List Comp

/-- `sep.join(parts)` for character-list strings. -/
def joinWith (sep : Char) : List (List Char) → List Char
  | [] => []
  | [c] => c
  | c :: rest => c ++ sep :: joinWith sep rest

/-- The string of an absolute POSIX path given by its components
(components are nonempty and slash-free for genuine paths). -/
def pathStr (p : AbsPath) : List Char := '/' :: joinWith '/' p

/-- Python `str.split(sep)` for a one-character separator: keeps empty
pieces and returns `[""]` on the empty string. -/
def pySplitChar (sep : Char) : List Char → List (List Char)
  | [] => [[]]
  | c :: rest =>
    if c = sep then [] :: pySplitChar sep rest
    else
      match pySplitChar sep rest with
      | [] => [[c]]
      | h :: t => (c :: h) :: t

/-- String-level `path + suffix` on a component path: the suffix attaches
to the last component (e.g. `join(root, *parts) + ".py"`). -/
def addToLast (suffix : List Char) : List Comp → List Comp
  | [] => [suffix]
  | [c] => [c ++ suffix]
  | c :: rest => c :: addToLast suffix rest

def pyExt : List Char := ".py".toList

def initPy : List Char := "__init__.py".toList

/-- The `external_prefixes` table of `_is_external_module`
(`dependency_analyzer.py` lines 157-169). -/
def externalModules : List (List Char) :=
  ["numpy", "np", "tensorflow", "tf", "torch", "pandas", "pd",
   "sklearn", "matplotlib", "cv2", "PIL", "requests", "flask",
   "django", "pytest", "unittest", "os", "sys", "json",
   "collections", "re", "math", "random", "datetime", "time",
   "pathlib", "typing", "itertools", "functools", "operator",
   "pickle", "csv", "logging", "argparse", "subprocess",
   "threading", "multiprocessing", "queue", "socket", "http",
   "urllib", "hashlib", "base64", "io", "tempfile", "shutil",
   "glob", "zipfile", "tarfile", "gzip", "warnings", "traceback",
   "inspect", "ast", "dis", "copy", "dataclasses", "enum",
   "abc", "contextlib", "weakref", "gc", "importlib"].map String.toList

/-- `DependencyAnalyzer._is_external_module` (lines 154-172):
the first dot-separated part is looked up in the external table. -/
def isExternalModule (module : List Char) : Bool :=
  match pySplitChar '.' module with
  | [] => false
  | first :: _ => externalModules.contains first

/-- `DependencyAnalyzer._resolve_absolute_import` (lines 127-152):
try `repo_root/<parts>.py`, then `repo_root/<parts>/__init__.py`;
external modules and misses resolve to `None`. -/
def resolveAbsoluteImport (isFile : AbsPath → Bool) (root : AbsPath)
    (module : List Char) : Option AbsPath :=
  if isExternalModule module then none
  else
    let parts := pySplitChar '.' module
    let filePath := addToLast pyExt (root ++ parts)
    if isFile filePath then some filePath
    else
      let initPath := root ++ parts ++ [initPy]
      if isFile initPath then some initPath
      else none

/-- The `for _ in range(level - 1)` walk of `_resolve_relative_import`
(lines 204-212): repeatedly take `os.path.dirname` and bail out with
`None` when the parent no longer `startswith` the repository root. -/
def walkUp (root : AbsPath) : Nat → AbsPath → Option AbsPath
  | 0, d => some d
  | n + 1, d =>
    let parent := d.dropLast
    if (pathStr root).isPrefixOf (pathStr parent) then walkUp root n parent
    else none

/-- `DependencyAnalyzer._resolve_relative_import` (lines 174-238). -/
def resolveRelativeImport (isFile : AbsPath → Bool) (root : AbsPath)
    (level : Nat) (module : List Char) (importingFile : AbsPath) :
    Option AbsPath :=
  match walkUp root (level - 1) importingFile.dropLast with
  | none => none
  | some targetDir =>
    if module = [] then
      let initPath := targetDir ++ [initPy]
      if isFile initPath then some initPath else none
    else
      let parts := pySplitChar '.' module
      let filePath := addToLast pyExt (targetDir ++ parts)
      if isFile filePath then some filePath
      else
        let initPath := targetDir ++ parts ++ [initPy]
        if isFile initPath then some initPath
        else none

theorem pySplitChar_ne_nil (sep : Char) (s : List Char) :
    pySplitChar sep s ≠ [] := by
  cases s with
  | nil => simp [pySplitChar]
  | cons c rest =>
    simp only [pySplitChar]
    by_cases h : c = sep
    · simp [h]
    · simp only [h, if_false]
      cases pySplitChar sep rest <;> simp

theorem addToLast_cons (suffix c : List Char) {l : List Comp} (h : l ≠ []) :
    addToLast suffix (c :: l) = c :: addToLast suffix l := by
  cases l with
  | nil => exact absurd rfl h
  | cons d rest => rfl

theorem addToLast_append (suffix : List Char) (root : AbsPath)
    {parts : List Comp} (h : parts ≠ []) :
    addToLast suffix (root ++ parts) = root ++ addToLast suffix parts := by
  induction root with
  | nil => simp
  | cons c rest ih =>
    have hne : rest ++ parts ≠ [] := by
      simp only [ne_eq, List.append_eq_nil, not_and]
      intro _
      exact h
    rw [List.cons_append, addToLast_cons suffix c hne, ih, List.cons_append]

theorem joinWith_cons (sep : Char) (c : List Char) {l : List (List Char)}
    (h : l ≠ []) : joinWith sep (c :: l) = c ++ sep :: joinWith sep l := by
  cases l with
  | nil => exact absurd rfl h
  | cons d rest => rfl

theorem joinWith_append (sep : Char) {l1 l2 : List (List Char)}
    (h1 : l1 ≠ []) (h2 : l2 ≠ []) :
    joinWith sep (l1 ++ l2) = joinWith sep l1 ++ sep :: joinWith sep l2 := by
  induction l1 with
  | nil => exact absurd rfl h1
  | cons c rest ih =>
    cases rest with
    | nil =>
      rw [List.singleton_append, joinWith_cons sep c h2]
      rfl
    | cons c' rest' =>
      rw [List.cons_append, joinWith_cons sep c (by simp),
        ih (by simp), joinWith_cons sep c (by simp)]
      simp

theorem pathStr_prefix_append (root : AbsPath) (t : List Comp) :
    (pathStr root).isPrefixOf (pathStr (root ++ t)) = true := by
  rw [List.isPrefixOf_iff_prefix]
  cases ht : t with
  | nil => simp
  | cons c rest =>
    cases hr : root with
    | nil =>
      simp only [pathStr, List.nil_append]
      exact ⟨joinWith '/' (c :: rest), by simp [joinWith]⟩
    | cons r rroot =>
      rw [pathStr, pathStr, joinWith_append '/' (by simp) (by simp)]
      exact ⟨'/' :: joinWith '/' (c :: rest), by simp⟩

theorem pathStr_dropLast_length {root : AbsPath} (hne : root ≠ [])
    (hcomp : ∀ c ∈ root, c ≠ []) :
    (pathStr root.dropLast).length < (pathStr root).length := by
  rcases List.eq_nil_or_concat root with h | ⟨init, last, hr⟩
  · exact absurd h hne
  · rw [hr, List.concat_eq_append] at hcomp ⊢
    have hlast : last ≠ [] := hcomp last (by simp)
    have hlastLen : 1 ≤ last.length := by
      cases hl : last with
      | nil => exact absurd hl hlast
      | cons a t => simp
    rw [List.dropLast_concat]
    cases hi : init with
    | nil =>
      show (['/'] : List Char).length < ('/' :: last).length
      simp only [List.length_cons, List.length_nil]
      omega
    | cons c rest =>
      rw [← hi, pathStr, pathStr,
        joinWith_append '/' (by rw [hi]; simp) (by simp)]
      simp only [List.length_cons, List.length_append]
      omega

theorem walkUp_extends_root (root : AbsPath) (hcomp : ∀ c ∈ root, c ≠ []) :
    ∀ (n : Nat) (s : List Comp) (t : AbsPath),
      walkUp root n (root ++ s) = some t → ∃ u, t = root ++ u := by
  intro n
  induction n with
  | zero =>
    intro s t h
    simp only [walkUp, Option.some.injEq] at h
    exact ⟨s, h.symm⟩
  | succ n ih =>
    intro s t h
    simp only [walkUp] at h
    by_cases hsnil : s = []
    · subst hsnil
      rw [List.append_nil] at h
      by_cases hrnil : root = []
      · subst hrnil
        simp only [List.dropLast_nil] at h
        rw [if_pos (by decide)] at h
        exact ih [] t h
      · have hlt := pathStr_dropLast_length hrnil hcomp
        have hfalse :
            (pathStr root).isPrefixOf (pathStr root.dropLast) = false := by
          by_contra hcon
          rw [Bool.not_eq_false, List.isPrefixOf_iff_prefix] at hcon
          have := hcon.length_le
          omega
        rw [hfalse] at h
        simp at h
    · rw [List.dropLast_append_of_ne_nil root hsnil,
        if_pos (pathStr_prefix_append root s.dropLast)] at h
      exact ih s.dropLast t h

/-- Claim C9: every dependency edge resolved by `_resolve_absolute_import`
or `_resolve_relative_import` points inside the repository root.  The
importing file lies under the root (`importingFile = root ++ rel`), and
genuine path components are nonempty; whenever a resolver returns a path,
the repository root is a component-prefix of it. -/
theorem resolved_imports_within_root
    (isFile : AbsPath → Bool) (root : AbsPath) (module : List Char)
    (level : Nat) (importingFile : AbsPath) (rel : List Comp)
    (hcomp : ∀ c ∈ root, c ≠ [])
    (hfile : importingFile = root ++ rel) (hrel : rel ≠ []) :
    (∀ p, resolveAbsoluteImport isFile root module = some p → root <+: p) ∧
    (∀ p, resolveRelativeImport isFile root level module importingFile
      = some p → root <+: p) := by
  have hparts : ∀ m : List Char, pySplitChar '.' m ≠ [] :=
    fun m => pySplitChar_ne_nil '.' m
  constructor
  · intro p h
    simp only [resolveAbsoluteImport] at h
    split_ifs at h with h1 h2 h3
    · injection h with h'
      rw [← h', addToLast_append pyExt root (hparts module)]
      exact List.prefix_append root _
    · injection h with h'
      rw [← h', List.append_assoc]
      exact List.prefix_append root _
  · intro p h
    have hdl : importingFile.dropLast = root ++ rel.dropLast := by
      rw [hfile, List.dropLast_append_of_ne_nil root hrel]
    cases hw : walkUp root (level - 1) importingFile.dropLast with
    | none =>
      simp only [resolveRelativeImport, hw] at h
      cases h
    | some targetDir =>
      obtain ⟨u, rfl⟩ :=
        walkUp_extends_root root hcomp (level - 1) rel.dropLast targetDir
          (by rw [← hdl]; exact hw)
      simp only [resolveRelativeImport, hw] at h
      split_ifs at h with h1 h2 h3 h4
      · injection h with h'
        rw [← h', List.append_assoc]
        exact List.prefix_append root _
      · injection h with h'
        have hu : u ++ pySplitChar '.' module ≠ [] := by
          simp only [ne_eq, List.append_eq_nil, not_and]
          intro _
          exact hparts module
        rw [← h', List.append_assoc, addToLast_append pyExt root hu]
        exact List.prefix_append root _
      · injection h with h'
        rw [← h', List.append_assoc, List.append_assoc]
        exact List.prefix_append root _

theorem resolved_imports_within_root_witness :
    (∀ p, resolveAbsoluteImport (fun _ => true) ["pkg".toList]
        "core".toList = some p → ["pkg".toList] <+: p) ∧
    (∀ p, resolveRelativeImport (fun _ => true) ["pkg".toList]
        2 "core".toList ["pkg".toList, "sub".toList, "mod.py".toList]
      = some p → ["pkg".toList] <+: p) :=
  resolved_imports_within_root (fun _ => true) ["pkg".toList] "core".toList
    2 ["pkg".toList, "sub".toList, "mod.py".toList]
    ["sub".toList, "mod.py".toList]
    (by decide) (by decide) (by decide)

/-! ## Per-file retry loop (`src/agentic_upgrader.py`)

`upgrade_file` / `upgrade_file_with_context` interact with the world only
through `utils`, `validator` and `llm_interface`; those effects are an
explicit `UpgradeEnv` oracle here.  `Except` models a raised exception
(every oracle call sits inside the loop's `try`).  The two source
functions are line-for-line identical except for the prompt builder and
the last apology marker, so both instantiate one loop definition.  A
trace records the externally visible effects the claims talk about:
how often the transformation service was invoked and which files were
written. -/

/-- Python `str.strip()` whitespace test (ASCII part). -/
def pyIsSpace (c : Char) : Bool :=
  c = ' ' || c = '\t' || c = '\n' || c = '\r' ||
    c = Char.ofNat 11 || c = Char.ofNat 12

def pyStripChars (s : List Char) : List Char :=
  ((s.dropWhile pyIsSpace).reverse.dropWhile pyIsSpace).reverse

/-- Python `str.strip()` (whitespace on both ends). -/
def pyStrip (s : String) : String := String.mk (pyStripChars s.toList)

/-- Python `str.lower()` (the markers compared against are ASCII). -/
def pyLower (s : String) : String := String.mk (s.toList.map Char.toLower)

/-- Split at the first occurrence of `pat`, returning the text before it
and the text after it (`None` when `pat` does not occur). -/
def splitOnce (pat : List Char) : List Char → Option (List Char × List Char)
  | [] => if pat.isEmpty then some ([], []) else none
  | c :: rest =>
    if pat.isPrefixOf (c :: rest) then some ([], (c :: rest).drop pat.length)
    else
      match splitOnce pat rest with
      | some (pre, post) => some (c :: pre, post)
      | none => none

/-- `clean_llm_response` (`agentic_upgrader.py` lines 231-237):
`re.search(r"` ```python `\s*(.*?)` ``` `", response, re.DOTALL)` matches at
the first occurrence of the opening token that is followed by a closing
token, and `group(1).strip()` strips the whitespace the greedy `\s*`
would have consumed, so the match value is the stripped text between the
first opening token and the next closing token; if no such pair exists
(in particular when no closing token follows the first opening token,
in which case no later opening token exists either, since it would embed
a closing token), the whole response is stripped instead. -/
def cleanLLMResponse (response : String) : String :=
  match splitOnce "```python".toList response.toList with
  | some (_, after) =>
    match splitOnce "```".toList after with
    | some (body, _) => String.mk (pyStripChars body)
    | none => pyStrip response
  | none => pyStrip response

/-- ASCII apostrophe, written numerically. -/
def apos : String := (Char.ofNat 39).toString

/-- U+2019 right single quotation mark (as in `upgrade_file` line 69). -/
def rsquo : String := (Char.ofNat 0x2019).toString

/-- `apology_prefixes` of `upgrade_file` (line 69); note the final entry
uses the typographic apostrophe. -/
def apologyMarkers : List String :=
  ["i" ++ apos ++ "m sorry", "im sorry", "sorry", "i cannot",
   "i can" ++ rsquo ++ "t"]

/-- `apology_prefixes` of `upgrade_file_with_context` (line 184); here
the final entry uses the ASCII apostrophe. -/
def apologyMarkersCtx : List String :=
  ["i" ++ apos ++ "m sorry", "im sorry", "sorry", "i cannot",
   "i can" ++ apos ++ "t"]

/-- The placeholder test of lines 70/185:
`stripped_code.lower().startswith(apology_prefixes)
 or stripped_code.startswith("# upgraded code here")`. -/
def isRefusal (markers : List String) (stripped : String) : Bool :=
  markers.any (fun m => m.toList.isPrefixOf (pyLower stripped).toList)
    || "# upgraded code here".toList.isPrefixOf stripped.toList

/-- Python `x or default` for an optional string (`None` and `""` are
both falsy), as in `error or "Maximum retries exceeded"`. -/
def pyOrStr (o : Option String) (d : String) : String :=
  match o with
  | none => d
  | some s => if s = "" then d else s

def pyTruthyStr (o : Option String) : Bool :=
  match o with
  | none => false
  | some s => !s.isEmpty

/-- Shared header of `utils.build_prompt` (lines 86-99). -/
def basePromptText : String :=
  "You are an expert Python ML code migration assistant.\n" ++
  "Upgrade the following Python code to be fully compatible with the latest stable version(s) " ++
  "of ONLY the libraries it already uses.\n\n" ++
  "âš ï¸ RULES:\n" ++
  "- Do NOT convert between frameworks (e.g., keep TensorFlow code in TensorFlow, PyTorch in PyTorch).\n" ++
  "- Do NOT add new frameworks unless already imported in the code.\n" ++
  "- Preserve all functionality and logic exactly.\n" ++
  "- Apply only necessary migrations (remove deprecated APIs, update function signatures, fix types).\n" ++
  "- Always return the ENTIRE corrected code.\n" ++
  "```python\n" ++
  "# upgraded code here\n" ++
  "```"

/-- `utils.build_prompt` (lines 83-114). -/
def buildPrompt (code : String) (error : Option String) : String :=
  if pyTruthyStr error then
    basePromptText ++ "\n\n" ++
    "The previously upgraded code failed with this error:\n" ++
    error.getD "" ++ "\n\n" ++
    "Please fix the issue and return the full corrected file.\n\n" ++
    "Code:\n" ++ code ++ "\n"
  else
    basePromptText ++ "\n\n" ++ "Code to upgrade:\n" ++ code ++ "\n"

/-- `os.path.basename` on a POSIX path string. -/
def pyBasename (p : String) : String :=
  match (pySplitChar '/' p.toList).getLast? with
  | some l => String.mk l
  | none => ""

/-- The per-dependency entries of `utils.build_prompt_with_context`
(lines 155-161), in dict insertion order. -/
def contextEntries : List (String × String) → String
  | [] => ""
  | (depPath, summary) :: rest =>
    "### " ++ pyBasename depPath ++ " ###\n" ++
    (if pyStrip summary ≠ "" then summary ++ "\n\n"
     else "(empty or no public interface)\n\n") ++
    contextEntries rest

/-- `utils.build_prompt_with_context` (lines 116-193). -/
def buildPromptWithContext (code : String) (ctx : List (String × String))
    (error : Option String) : String :=
  let header :=
    "You are an expert Python ML code migration assistant.\n" ++
    "Upgrade the following Python code to be fully compatible with the latest stable version(s) " ++
    "of ONLY the libraries it already uses.\n\n" ++
    "âš ï¸  RULES:\n" ++
    "- Do NOT convert between frameworks (e.g., keep TensorFlow code in TensorFlow, PyTorch in PyTorch).\n" ++
    "- Do NOT add new frameworks unless already imported in the code.\n" ++
    "- Preserve all functionality and logic exactly.\n" ++
    "- Apply only necessary migrations (remove deprecated APIs, update function signatures, fix types).\n" ++
    "- Always return the ENTIRE corrected code.\n"
  let withCtx :=
    if ctx ≠ [] then
      header ++
      "\n\nðŸ“š DEPENDENCY CONTEXT:\n" ++
      "This file imports from other files in the repository. " ++
      "Here are their current interfaces (already upgraded):\n\n" ++
      contextEntries ctx ++
      "âš ï¸  IMPORTANT: Your upgraded code MUST be compatible with these interfaces.\n" ++
      "- Match function signatures exactly\n" ++
      "- Use the same return types\n" ++
      "- Don" ++ apos ++ "t assume different APIs than shown above\n" ++
      "- If a function signature shows specific types, use them\n\n"
    else header
  let base := withCtx ++ "```python\n" ++ "# upgraded code here\n" ++ "```"
  if pyTruthyStr error then
    base ++ "\n\n" ++
    "The previously upgraded code failed with this error:\n" ++
    error.getD "" ++ "\n\n" ++
    "Please fix the issue and return the full corrected file.\n\n" ++
    "Code to upgrade:\n" ++ code ++ "\n"
  else
    base ++ "\n\n" ++ "Code to upgrade:\n" ++ code ++ "\n"

/-- `report_generator.FileUpgradeResult` (dataclass, lines 6-14);
`error` and `diff` default to `None`. -/
structure FileUpgradeResult where
  file_path : String
  success : Bool
  attempts : Nat
  api_changes : List String
  error : Option String := none
  diff : Option String := none
deriving Repr, DecidableEq

/-- Oracle for the retry loop's collaborators: file-system prechecks,
the transformation service (`llm_interface.call_llm`) and the validator
(`validator.validate_code` on the just-written output).  `Except.error`
models a raised exception.  `apiChanges` and `diffOf` stand for
`utils.extract_api_changes` / `utils.generate_diff`, pure text heuristics
whose output no claim constrains. -/
structure UpgradeEnv where
  inputExists : Bool
  skipReason : Option String
  inputContent : String
  precheck : Except String (Bool × Option String)
  llm : String → Except String String
  validate : String → Except String (Bool × Option String)
  apiChanges : String → String → List String
  diffOf : String → String → String

/-- Externally visible effects of one `upgrade_file` run: number of
transformation-service invocations and the `(path, content)` writes. -/
structure UpgradeTrace where
  llmCalls : Nat := 0
  writes : List (String × String) := []
deriving Repr, DecidableEq

/-- The `for attempt in range(1, MAX_RETRIES + 1)` loop shared by
`upgrade_file` (lines 57-112) and `upgrade_file_with_context`
(lines 169-228); the two differ only in `mkPrompt` and `markers`.
State: remaining attempts, current attempt number, `current_code`,
`error`.  Every oracle failure is caught (the `except` clause) and
becomes the next attempt's error context. -/
def upgradeAttemptLoop (env : UpgradeEnv)
    (mkPrompt : String → Option String → String) (markers : List String)
    (inputPath outputPath oldCode : String) (maxRetries : Nat) :
    Nat → Nat → String → Option String → UpgradeTrace →
      FileUpgradeResult × UpgradeTrace
  | 0, _, _, err, tr =>
    ({ file_path := inputPath, success := false, attempts := maxRetries,
       api_changes := [], error := some (pyOrStr err "Maximum retries exceeded") },
     tr)
  | n + 1, attempt, currentCode, err, tr =>
    match env.llm (mkPrompt currentCode err) with
    | Except.error e =>
      upgradeAttemptLoop env mkPrompt markers inputPath outputPath oldCode
        maxRetries n (attempt + 1) currentCode (some e)
        { tr with llmCalls := tr.llmCalls + 1 }
    | Except.ok response =>
      let tr1 : UpgradeTrace := { tr with llmCalls := tr.llmCalls + 1 }
      let newCode := cleanLLMResponse response
      let stripped := pyStrip newCode
      if stripped = "" then
        upgradeAttemptLoop env mkPrompt markers inputPath outputPath oldCode
          maxRetries n (attempt + 1) currentCode
          (some "LLM returned empty response") tr1
      else if isRefusal markers stripped then
        upgradeAttemptLoop env mkPrompt markers inputPath outputPath oldCode
          maxRetries n (attempt + 1) currentCode
          (some "LLM returned placeholder text instead of upgraded code") tr1
      else
        let tr2 : UpgradeTrace :=
          { tr1 with writes := tr1.writes ++ [(outputPath, newCode)] }
        match env.validate newCode with
        | Except.error e =>
          upgradeAttemptLoop env mkPrompt markers inputPath outputPath oldCode
            maxRetries n (attempt + 1) currentCode (some e) tr2
        | Except.ok (isValid, verr) =>
          if isValid then
            ({ file_path := inputPath, success := true, attempts := attempt,
               api_changes := env.apiChanges oldCode newCode,
               error := none, diff := some (env.diffOf oldCode newCode) },
             tr2)
          else
            upgradeAttemptLoop env mkPrompt markers inputPath outputPath oldCode
              maxRetries n (attempt + 1) newCode verr tr2

/-- Default of `int(os.getenv("ML_UPGRADER_MAX_RETRIES", "5"))`. -/
def defaultMaxRetries : Nat := 5

/-- The shared prologue of both upgrade functions (lines 26-55 /
136-166): missing input and skip checks, then the pre-check validation
whose failure (or exception) seeds the first attempt's error context. -/
def precheckError (env : UpgradeEnv) : Option String :=
  match env.precheck with
  | Except.ok (true, _) => none
  | Except.ok (false, e) => e
  | Except.error e => some e

/-- `agentic_upgrader.upgrade_file` (lines 21-112). -/
def upgradeFile (env : UpgradeEnv) (inputPath outputPath : String)
    (maxRetries : Nat) : FileUpgradeResult × UpgradeTrace :=
  if !env.inputExists then
    ({ file_path := inputPath, success := false, attempts := 0,
       api_changes := [], error := some "Input file not found" }, {})
  else
    match env.skipReason with
    | some reason =>
      ({ file_path := inputPath, success := false, attempts := 0,
         api_changes := [], error := some reason }, {})
    | none =>
      upgradeAttemptLoop env buildPrompt apologyMarkers inputPath outputPath
        env.inputContent maxRetries maxRetries 1 env.inputContent
        (precheckError env) {}

/-- `agentic_upgrader.upgrade_file_with_context` (lines 114-228). -/
def upgradeFileWithContext (env : UpgradeEnv) (inputPath outputPath : String)
    (ctx : List (String × String)) (maxRetries : Nat) :
    FileUpgradeResult × UpgradeTrace :=
  if !env.inputExists then
    ({ file_path := inputPath, success := false, attempts := 0,
       api_changes := [], error := some "Input file not found" }, {})
  else
    match env.skipReason with
    | some reason =>
      ({ file_path := inputPath, success := false, attempts := 0,
         api_changes := [], error := some reason }, {})
    | none =>
      upgradeAttemptLoop env (fun c e => buildPromptWithContext c ctx e)
        apologyMarkersCtx inputPath outputPath
        env.inputContent maxRetries maxRetries 1 env.inputContent
        (precheckError env) {}

theorem upgradeAttemptLoop_never_valid (env : UpgradeEnv)
    (mkPrompt : String → Option String → String) (markers : List String)
    (ip op old : String) (maxR : Nat)
    (hinvalid : ∀ s r, env.validate s = Except.ok r → r.1 = false) :
    ∀ (n attempt : Nat) (code : String) (err : Option String)
      (tr : UpgradeTrace),
      ∃ e : Option String,
        (upgradeAttemptLoop env mkPrompt markers ip op old maxR
            n attempt code err tr).1
          = { file_path := ip, success := false, attempts := maxR,
              api_changes := [],
              error := some (pyOrStr e "Maximum retries exceeded") } := by
  intro n
  induction n with
  | zero =>
    intro attempt code err tr
    exact ⟨err, rfl⟩
  | succ n ih =>
    intro attempt code err tr
    rw [upgradeAttemptLoop]
    cases hllm : env.llm (mkPrompt code err) with
    | error e => exact ih (attempt + 1) code (some e) _
    | ok response =>
      simp only
      by_cases hstr : pyStrip (cleanLLMResponse response) = ""
      · rw [if_pos hstr]
        exact ih (attempt + 1) code _ _
      · rw [if_neg hstr]
        by_cases href : isRefusal markers (pyStrip (cleanLLMResponse response)) = true
        · rw [if_pos href]
          exact ih (attempt + 1) code _ _
        · rw [if_neg href]
          cases hval : env.validate (cleanLLMResponse response) with
          | error e => exact ih (attempt + 1) code (some e) _
          | ok r =>
            obtain ⟨isValid, verr⟩ := r
            have : isValid = false := hinvalid _ _ hval
            subst this
            simp only [Bool.false_eq_true, if_false]
            exact ih (attempt + 1) (cleanLLMResponse response) verr _

/-- Claim C4: when validation never passes (the service's responses are
invalid on every attempt, whether rejected as empty or refusal, by a
thrown exception, or by the validator reporting failure), `upgrade_file`
returns a `FileUpgradeResult` with `success = False` and an attempt count
exactly equal to the configured retry ceiling
(`ML_UPGRADER_MAX_RETRIES`, default `defaultMaxRetries = 5`), carrying
the last recorded error, or the generic exhausted message when no
(non-empty) error was ever recorded. -/
theorem upgrade_file_retry_exhaustion (env : UpgradeEnv)
    (ip op : String) (maxRetries : Nat)
    (hexists : env.inputExists = true) (hskip : env.skipReason = none)
    (hinvalid : ∀ s r, env.validate s = Except.ok r → r.1 = false) :
    ∃ e : Option String,
      (upgradeFile env ip op maxRetries).1
        = { file_path := ip, success := false, attempts := maxRetries,
            api_changes := [],
            error := some (pyOrStr e "Maximum retries exceeded") } := by
  rw [upgradeFile, hexists, hskip]
  simp only [Bool.not_true, Bool.false_eq_true, if_false]
  exact upgradeAttemptLoop_never_valid env buildPrompt apologyMarkers ip op
    env.inputContent maxRetries hinvalid maxRetries 1 env.inputContent
    (precheckError env) {}

theorem upgrade_file_retry_exhaustion_witness :
    ∃ e : Option String,
      (upgradeFile
        { inputExists := true, skipReason := none, inputContent := "x = 1",
          precheck := Except.ok (true, none),
          llm := fun _ => Except.ok "x = 2",
          validate := fun _ => Except.ok (false, some "Compilation error"),
          apiChanges := fun _ _ => [], diffOf := fun _ _ => "" }
        "model.py" "model.py" defaultMaxRetries).1
        = { file_path := "model.py", success := false,
            attempts := defaultMaxRetries, api_changes := [],
            error := some (pyOrStr e "Maximum retries exceeded") } :=
  upgrade_file_retry_exhaustion _ "model.py" "model.py" defaultMaxRetries
    rfl rfl
    (by
      intro s r h
      injection h with h'
      rw [← h'])

/-- Claim C8: a transformation-service response whose extracted text is
empty or starts with a refusal/apology/placeholder marker is a
recoverable attempt failure: the loop records the descriptive error,
writes nothing for that attempt, raises nothing (the loop is a total
function returning a result), and proceeds to the next attempt with the
remaining budget decremented. -/
theorem refusal_response_recoverable (env : UpgradeEnv)
    (mkPrompt : String → Option String → String) (markers : List String)
    (ip op old : String) (maxR n attempt : Nat) (code : String)
    (err : Option String) (tr : UpgradeTrace) (response : String)
    (hllm : env.llm (mkPrompt code err) = Except.ok response)
    (hbad : pyStrip (cleanLLMResponse response) = "" ∨
      isRefusal markers (pyStrip (cleanLLMResponse response)) = true) :
    upgradeAttemptLoop env mkPrompt markers ip op old maxR
        (n + 1) attempt code err tr
      = upgradeAttemptLoop env mkPrompt markers ip op old maxR
          n (attempt + 1) code
          (some (if pyStrip (cleanLLMResponse response) = "" then
              "LLM returned empty response"
            else "LLM returned placeholder text instead of upgraded code"))
          { tr with llmCalls := tr.llmCalls + 1 } := by
  rw [upgradeAttemptLoop, hllm]
  by_cases hstr : pyStrip (cleanLLMResponse response) = ""
  · simp [hstr]
  · rcases hbad with hbad | hbad
    · exact absurd hbad hstr
    · simp only
      rw [if_neg hstr, if_pos hbad, if_neg hstr]

theorem refusal_response_recoverable_witness :
    upgradeAttemptLoop
        { inputExists := true, skipReason := none, inputContent := "x = 1",
          precheck := Except.ok (true, none),
          llm := fun _ => Except.ok
            ("I" ++ apos ++ "m sorry, I cannot upgrade this file."),
          validate := fun _ => Except.ok (true, none),
          apiChanges := fun _ _ => [], diffOf := fun _ _ => "" }
        buildPrompt apologyMarkers "model.py" "model.py" "x = 1" 5
        5 1 "x = 1" none {}
      = upgradeAttemptLoop
          { inputExists := true, skipReason := none, inputContent := "x = 1",
            precheck := Except.ok (true, none),
            llm := fun _ => Except.ok
              ("I" ++ apos ++ "m sorry, I cannot upgrade this file."),
            validate := fun _ => Except.ok (true, none),
            apiChanges := fun _ _ => [], diffOf := fun _ _ => "" }
          buildPrompt apologyMarkers "model.py" "model.py" "x = 1" 5
          4 2 "x = 1"
          (some (if pyStrip (cleanLLMResponse
              ("I" ++ apos ++ "m sorry, I cannot upgrade this file.")) = ""
            then "LLM returned empty response"
            else "LLM returned placeholder text instead of upgraded code"))
          { llmCalls := 1, writes := [] } :=
  refusal_response_recoverable _ buildPrompt apologyMarkers
    "model.py" "model.py" "x = 1" 5 4 1 "x = 1" none {}
    ("I" ++ apos ++ "m sorry, I cannot upgrade this file.")
    rfl (Or.inr (by decide))

/-- Claim C10: a missing input file makes both `upgrade_file` and
`upgrade_file_with_context` return immediately with `success = False`,
`attempts = 0`, empty `api_changes` and the error message
`"Input file not found"`, with an empty trace: the transformation
service is never invoked and no output file is written. -/
theorem upgrade_file_missing_input (env : UpgradeEnv) (ip op : String)
    (ctx : List (String × String)) (maxRetries : Nat)
    (h : env.inputExists = false) :
    upgradeFile env ip op maxRetries
      = ({ file_path := ip, success := false, attempts := 0,
           api_changes := [], error := some "Input file not found" },
         { llmCalls := 0, writes := [] }) ∧
    upgradeFileWithContext env ip op ctx maxRetries
      = ({ file_path := ip, success := false, attempts := 0,
           api_changes := [], error := some "Input file not found" },
         { llmCalls := 0, writes := [] }) := by
  constructor
  · rw [upgradeFile, h]
    rfl
  · rw [upgradeFileWithContext, h]
    rfl

theorem upgrade_file_missing_input_witness :
    upgradeFile
        { inputExists := false, skipReason := none, inputContent := "",
          precheck := Except.ok (true, none),
          llm := fun _ => Except.ok "",
          validate := fun _ => Except.ok (true, none),
          apiChanges := fun _ _ => [], diffOf := fun _ _ => "" }
        "missing.py" "missing.py" 5
      = ({ file_path := "missing.py", success := false, attempts := 0,
           api_changes := [], error := some "Input file not found" },
         { llmCalls := 0, writes := [] }) ∧
    upgradeFileWithContext
        { inputExists := false, skipReason := none, inputContent := "",
          precheck := Except.ok (true, none),
          llm := fun _ => Except.ok "",
          validate := fun _ => Except.ok (true, none),
          apiChanges := fun _ _ => [], diffOf := fun _ _ => "" }
        "missing.py" "missing.py" [("dep.py", "def f(x)")] 5
      = ({ file_path := "missing.py", success := false, attempts := 0,
           api_changes := [], error := some "Input file not found" },
         { llmCalls := 0, writes := [] }) :=
  upgrade_file_missing_input _ "missing.py" "missing.py"
    [("dep.py", "def f(x)")] 5 rfl

/-! ## Orchestrator's repository-wide validation call
(`src/repo_upgrader.py` lines 237-268, `src/validator.py` lines 134-164)

`upgrade_repo_with_dependency_awareness` ends by calling
`validator.validate_repository(new_repo, runtime_output_dir=...,
runtime_compare_dir=...)` when every processed file succeeded, returning
the report path if the verdict is positive and raising `RuntimeError`
otherwise.  Python binds keyword arguments against the callee's
parameter list before any of the callee's code runs; that binding step
is modelled explicitly because `validate_repository`'s definition has a
single parameter. -/

structure PyFunctionSig where
  params : List String
  hasVarKeyword : Bool

/-- Signature of `validator.validate_repository` (validator.py line 134):
`def validate_repository(root_path: str)` — one parameter, no
`**kwargs`. -/
def validateRepositorySig : PyFunctionSig :=
  { params := ["root_path"], hasVarKeyword := false }

/-- The keyword arguments the orchestrator passes in the call at
repo_upgrader.py lines 246-250. -/
def orchestratorValidateKwargs : List String :=
  ["runtime_output_dir", "runtime_compare_dir"]

/-- Python call binding: a keyword argument that matches no parameter of
a function without `**kwargs` raises `TypeError` before the body runs. -/
def callRaisesUnexpectedKeyword (sig : PyFunctionSig)
    (kwargs : List String) : Bool :=
  !sig.hasVarKeyword && kwargs.any (fun k => !sig.params.contains k)

inductive OrchestratorOutcome
  | returnsReport (path : String)
  | raisesTypeError
  | raisesRuntimeError
deriving Repr, DecidableEq

/-- The final validation stage of `upgrade_repo_with_dependency_awareness`
(lines 237-268): `if total > 0 and successful == total`, call
`validator.validate_repository` with the two runtime keyword arguments
(the binding is checked first, as Python does); on a positive verdict the
report path is returned, on a negative one `RuntimeError` is raised;
when some files failed, validation is skipped with a notice and the
report path is returned.  `runtimeOk` is the verdict the call would
produce if the binding succeeded. -/
def orchestratorFinalStage (total successful : Nat) (runtimeOk : Bool)
    (reportPath : String) : OrchestratorOutcome :=
  if 0 < total ∧ successful = total then
    if callRaisesUnexpectedKeyword validateRepositorySig
        orchestratorValidateKwargs then
      OrchestratorOutcome.raisesTypeError
    else if runtimeOk then OrchestratorOutcome.returnsReport reportPath
    else OrchestratorOutcome.raisesRuntimeError
  else OrchestratorOutcome.returnsReport reportPath

/-- Claim C3 (code bug): in a run where every per-file upgrade succeeds
(`total = n + 1`, `successful = total`) and runtime verification is
enabled, the orchestrator never reaches repository-wide runtime
validation and never returns the report path: the call site passes the
keyword arguments `runtime_output_dir` and `runtime_compare_dir`,
which `validate_repository(root_path)` does not accept, so the call
raises `TypeError` — whatever verdict validation would have given.
(The intended signature is documented by
`tests/test_repo_upgrader.py`, whose stub accepts exactly these
keywords.) -/
theorem orchestrator_validation_call_raises_type_error :
    callRaisesUnexpectedKeyword validateRepositorySig
        orchestratorValidateKwargs = true ∧
    ∀ (n : Nat) (runtimeOk : Bool) (reportPath : String),
      orchestratorFinalStage (n + 1) (n + 1) runtimeOk reportPath
        = OrchestratorOutcome.raisesTypeError := by
  refine ⟨by decide, ?_⟩
  intro n runtimeOk reportPath
  rw [orchestratorFinalStage, if_pos ⟨Nat.succ_pos n, rfl⟩,
    if_pos (by decide)]

/-! ## Runtime output comparison
(`src/runtime_validation.py` lines 1083-1209)

Captured texts are embedded as `List Char` (`PyStr`), so Python's
`str.replace` can be modelled exactly.  A capture directory's loadable
content (`metadata.json`, `stdout.txt`, `stderr.txt`) is a
`RuntimeCaptureSet`; `_compare_runtime_outputs`' I/O prologue
(directory and read errors) is outside the model, which covers the
decision logic from line 1104 on. -/

abbrev PyStr := List Char

/-- Python `str.replace(pat, rep)`: scan left to right, replace each
non-overlapping occurrence; an empty pattern matches at every position
and at the end. -/
def pyReplace (pat rep : PyStr) : PyStr → PyStr
  | [] => if pat.isEmpty then rep else []
  | c :: rest =>
    if h : pat.isPrefixOf (c :: rest) = true ∧ pat ≠ [] then
      rep ++ pyReplace pat rep ((c :: rest).drop pat.length)
    else if pat.isEmpty then rep ++ c :: pyReplace pat rep rest
    else c :: pyReplace pat rep rest
termination_by s => s.length
decreasing_by
  · have hpat : 1 ≤ pat.length := by
      cases hp : pat with
      | nil => exact absurd hp h.2
      | cons a t => simp
    simp only [List.length_drop, List.length_cons]
    omega
  · simp
  · simp

/-- Substring test (used to state the side conditions under which
`str.replace` is the identity). -/
def hasSubstr (pat : PyStr) : PyStr → Bool
  | [] => pat.isEmpty
  | c :: rest => pat.isPrefixOf (c :: rest) || hasSubstr pat rest

/-- Python `str.rstrip(ch)` for a single character. -/
def pyRstrip (ch : Char) (s : PyStr) : PyStr :=
  (s.reverse.dropWhile (fun c => c = ch)).reverse

/-- `posixpath.normpath` (the `os.path.normpath` of the platform the
program targets): collapse empty and `.` components, resolve `..`,
keep the POSIX one-or-two leading-slash convention. -/
def posixNormpath (path : PyStr) : PyStr :=
  if path.isEmpty then ['.']
  else
    let initialSlashes : Nat :=
      if path.take 1 = ['/'] then
        (if path.take 2 = ['/', '/'] ∧ path.take 3 ≠ ['/', '/', '/'] then 2
         else 1)
      else 0
    let comps := pySplitChar '/' path
    let newComps := comps.foldl
      (fun acc comp =>
        if comp = [] ∨ comp = ['.'] then acc
        else if comp ≠ ['.', '.'] ∨ (initialSlashes = 0 ∧ acc = []) ∨
            (acc ≠ [] ∧ acc.getLast? = some ['.', '.']) then acc ++ [comp]
        else if acc ≠ [] then acc.dropLast
        else acc) []
    let result := List.replicate initialSlashes '/' ++ joinWith '/' newComps
    if result.isEmpty then ['.'] else result

/-- The placeholder both roots are rewritten to
(`_normalize_runtime_output_text`, line 1197). -/
def projectRootToken : PyStr := "<PROJECT_ROOT>".toList

/-- A Python `set` built from a list, iterated: one entry per distinct
element, modelled in first-insertion order. -/
def dedupKeepFirst : List PyStr → List PyStr
  | [] => []
  | x :: rest => x :: dedupKeepFirst (rest.filter (fun y => decide (y ≠ x)))
termination_by l => l.length
decreasing_by
  have := List.length_filter_le (fun y => decide (y ≠ x)) rest
  simp only [List.length_cons]
  omega

/-- The `variants` set of `_replace_root` (lines 1191-1196):
`{root, normpath(root), normpath(root)+sep, root.rstrip(sep)+sep}`.
A Python `set` iterates in an implementation-defined order; it is
modelled in first-insertion order (under the hypotheses of the claims
the set has exactly two elements, `root` and `root + "/"`, and the
replacement result does not depend on their order). -/
def normalizeVariants (root : PyStr) : List PyStr :=
  dedupKeepFirst [root, posixNormpath root, posixNormpath root ++ ['/'],
    pyRstrip '/' root ++ ['/']]

/-- `_replace_root` (lines 1187-1204): replace every variant of the
root, mapping slash-terminated variants to `<PROJECT_ROOT>/` and the
others to `<PROJECT_ROOT>`; falsy roots (`None` / `""`) leave the text
unchanged. -/
def replaceRoot (text : PyStr) (root : Option PyStr) : PyStr :=
  match root with
  | none => text
  | some r =>
    if r.isEmpty then text
    else
      (normalizeVariants r).foldl
        (fun t v =>
          pyReplace v
            (if v.getLast? = some '/' then projectRootToken ++ ['/']
             else projectRootToken) t)
        text

/-- `_normalize_runtime_output_text` (lines 1184-1209): first the
baseline root, then the current root, is rewritten to the placeholder. -/
def normalizeRuntimeOutputText (content : PyStr)
    (baselineRoot currentRoot : Option PyStr) : PyStr :=
  replaceRoot (replaceRoot content baselineRoot) currentRoot

/-- The metadata `_store_runtime_outputs` persists (lines 1058-1068), as
read back by `_compare_runtime_outputs`: `command` and `project_root`
may be absent/null, `success` and `timed_out` are read through `bool()`,
`returncode` may be null. -/
structure RuntimeCaptureMeta where
  command : Option PyStr
  project_root : Option PyStr
  success : Bool
  returncode : Option Int
  timed_out : Bool
deriving Repr, DecidableEq

/-- A loaded capture directory: metadata plus the persisted streams. -/
structure RuntimeCaptureSet where
  meta : RuntimeCaptureMeta
  stdout : PyStr
  stderr : PyStr
deriving Repr, DecidableEq

inductive RuntimeCompareReason
  | baselineNotSuccessful
  | returncodeChanged
  | timeoutChanged
  | stdoutDiffers
  | stderrDiffers
deriving Repr, DecidableEq

/-- The decision logic of `_compare_runtime_outputs`
(lines 1104-1181), after both capture sets loaded: reject unless the
baseline reported success; normalize both streams of both sides with
both roots; then compare return code, timeout flag, stdout, stderr. -/
def compareRuntimeOutputs (current reference : RuntimeCaptureSet) :
    Bool × Option RuntimeCompareReason :=
  if !reference.meta.success then
    (false, some RuntimeCompareReason.baselineNotSuccessful)
  else
    let broot := reference.meta.project_root
    let croot := current.meta.project_root
    let baselineStdout := normalizeRuntimeOutputText reference.stdout broot croot
    let currentStdout := normalizeRuntimeOutputText current.stdout broot croot
    let baselineStderr := normalizeRuntimeOutputText reference.stderr broot croot
    let currentStderr := normalizeRuntimeOutputText current.stderr broot croot
    if reference.meta.returncode ≠ current.meta.returncode then
      (false, some RuntimeCompareReason.returncodeChanged)
    else if reference.meta.timed_out ≠ current.meta.timed_out then
      (false, some RuntimeCompareReason.timeoutChanged)
    else if baselineStdout ≠ currentStdout then
      (false, some RuntimeCompareReason.stdoutDiffers)
    else if baselineStderr ≠ currentStderr then
      (false, some RuntimeCompareReason.stderrDiffers)
    else (true, none)

/-- Claim C6, counterexample: two captures whose recorded commands
differ but whose status, return code, timeout flag and streams agree
compare as a full match: `_compare_runtime_outputs` proceeds to a
verdict based on the outputs instead of rejecting the pair as not
comparable. -/
theorem compare_differing_commands_counterexample :
    (some "python a.py".toList : Option PyStr) ≠ some "python b.py".toList ∧
    compareRuntimeOutputs
      { meta := { command := some "python a.py".toList, project_root := none,
                  success := true, returncode := some 0, timed_out := false },
        stdout := "ok".toList, stderr := [] }
      { meta := { command := some "python b.py".toList, project_root := none,
                  success := true, returncode := some 0, timed_out := false },
        stdout := "ok".toList, stderr := [] }
      = (true, none) := by
  constructor
  · decide
  · decide

/-- Claim C6 as amended: `_compare_runtime_outputs` never consults the
recorded commands — its verdict is unchanged under replacing either
capture's `command` metadata by anything.  Comparability is decided only
by baseline success, return codes, timeout flags and the normalized
streams; the configured command is persisted by `_store_runtime_outputs`
but not checked. -/
theorem compare_runtime_outputs_ignores_command
    (current reference : RuntimeCaptureSet) (c1 c2 : Option PyStr) :
    compareRuntimeOutputs
        { current with meta := { current.meta with command := c1 } }
        { reference with meta := { reference.meta with command := c2 } }
      = compareRuntimeOutputs current reference := rfl

theorem hasSubstr_eq_false_of_head_not_mem {pat s : PyStr} {hd : Char}
    (hhead : pat.head? = some hd) (hmem : hd ∉ s) :
    hasSubstr pat s = false := by
  induction s with
  | nil =>
    cases hp : pat with
    | nil => rw [hp] at hhead; cases hhead
    | cons p pt => simp [hasSubstr, hp]
  | cons c rest ih =>
    simp only [hasSubstr, Bool.or_eq_false_iff]
    have hmemr : hd ∉ rest := fun h => hmem (List.mem_cons_of_mem c h)
    have hne : hd ≠ c := fun h => hmem (h ▸ List.mem_cons_self c rest)
    refine ⟨?_, ih hmemr⟩
    cases hp : pat with
    | nil => rw [hp] at hhead; cases hhead
    | cons p pt =>
      rw [hp] at hhead
      have hpc : p = hd := by injection hhead
      subst hpc
      show ((p == c) && pt.isPrefixOf rest) = false
      have : (p == c) = false := by
        rw [beq_eq_false_iff_ne]
        exact hne
      rw [this, Bool.false_and]

theorem pyReplace_eq_self {pat rep s : PyStr}
    (h : hasSubstr pat s = false) : pyReplace pat rep s = s := by
  induction s with
  | nil =>
    rw [pyReplace]
    have : pat.isEmpty = false := by simpa [hasSubstr] using h
    rw [this]
    rfl
  | cons c rest ih =>
    simp only [hasSubstr, Bool.or_eq_false_iff] at h
    obtain ⟨h1, h2⟩ := h
    have hne : pat ≠ [] := by
      intro he
      rw [he] at h1
      simp [List.isPrefixOf] at h1
    rw [pyReplace, dif_neg (by simp [h1])]
    have : pat.isEmpty = false := by
      cases hp : pat with
      | nil => exact absurd hp hne
      | cons a t => rfl
    rw [this]
    simp only [Bool.false_eq_true, if_false]
    rw [ih h2]

theorem isPrefixOf_cons_eq_false {pat : PyStr} {hd c : Char} {s : List Char}
    (hhead : pat.head? = some hd) (hne : hd ≠ c) :
    pat.isPrefixOf (c :: s) = false := by
  cases hp : pat with
  | nil => rw [hp] at hhead; cases hhead
  | cons p pt =>
    rw [hp] at hhead
    have hpc : p = hd := by injection hhead
    subst hpc
    show ((p == c) && pt.isPrefixOf s) = false
    have : (p == c) = false := by
      rw [beq_eq_false_iff_ne]
      exact hne
    rw [this, Bool.false_and]

theorem hasSubstr_append_eq_false {p q s : PyStr}
    (h : hasSubstr p s = false) : hasSubstr (p ++ q) s = false := by
  induction s with
  | nil =>
    have hp : p.isEmpty = false := by simpa [hasSubstr] using h
    have hpne : p ≠ [] := by
      cases hq : p with
      | nil => rw [hq] at hp; cases hp
      | cons a t => simp
    show (p ++ q).isEmpty = false
    cases hpq : p ++ q with
    | nil => exact absurd (List.append_eq_nil.mp hpq).1 hpne
    | cons a t => rfl
  | cons c rest ih =>
    simp only [hasSubstr, Bool.or_eq_false_iff] at h ⊢
    refine ⟨?_, ih h.2⟩
    by_contra hc
    rw [Bool.not_eq_false, List.isPrefixOf_iff_prefix] at hc
    have : p <+: c :: rest := (List.prefix_append p q).trans hc
    rw [← List.isPrefixOf_iff_prefix] at this
    rw [this] at h
    exact absurd h.1 (by simp)

/-- `sep`-intercalation of text pieces: the shape of a stream that
mentions a path `sep` between otherwise path-free pieces. -/
def interRoot (sep : PyStr) : List PyStr → PyStr
  | [] => []
  | [p] => p
  | p :: rest => p ++ sep ++ interRoot sep rest

theorem mem_interRoot {c : Char} {sep : PyStr} :
    ∀ {parts : List PyStr}, c ∈ interRoot sep parts →
      c ∈ sep ∨ ∃ p ∈ parts, c ∈ p := by
  intro parts
  induction parts with
  | nil => intro h; cases h
  | cons p rest ih =>
    intro h
    cases rest with
    | nil =>
      exact Or.inr ⟨p, List.mem_singleton.mpr rfl, h⟩
    | cons q rest' =>
      have h' : c ∈ p ++ sep ++ interRoot sep (q :: rest') := h
      rcases List.mem_append.mp h' with h'' | h''
      · rcases List.mem_append.mp h'' with h3 | h3
        · exact Or.inr ⟨p, List.mem_cons_self .., h3⟩
        · exact Or.inl h3
      · rcases ih h'' with h3 | ⟨r, hr, hcr⟩
        · exact Or.inl h3
        · exact Or.inr ⟨r, List.mem_cons_of_mem p hr, hcr⟩

theorem pyReplace_skip_part {R P : PyStr} {hd : Char}
    (hhead : R.head? = some hd) :
    ∀ (x t : PyStr), hd ∉ x →
      pyReplace R P (x ++ R ++ t) = x ++ P ++ pyReplace R P t := by
  intro x
  induction x with
  | nil =>
    intro t _
    cases hR : R with
    | nil => rw [hR] at hhead; cases hhead
    | cons r rt =>
      subst hR
      show pyReplace (r :: rt) P (r :: (rt ++ t))
        = P ++ pyReplace (r :: rt) P t
      rw [pyReplace]
      have hpre : (r :: rt).isPrefixOf (r :: (rt ++ t)) = true := by
        rw [List.isPrefixOf_iff_prefix]
        exact ⟨t, by simp⟩
      rw [dif_pos ⟨hpre, by simp⟩]
      have hdrop : (r :: (rt ++ t)).drop (r :: rt).length = t := by
        have h1 : r :: (rt ++ t) = (r :: rt) ++ t := by simp
        rw [h1]
        exact List.drop_left (r :: rt) t
      rw [hdrop]
  | cons a x' ih =>
    intro t hmem
    have hne : hd ≠ a := fun h => hmem (h ▸ List.mem_cons_self a x')
    have hmem' : hd ∉ x' := fun h => hmem (List.mem_cons_of_mem a h)
    show pyReplace R P (a :: (x' ++ R ++ t))
      = (a :: x') ++ P ++ pyReplace R P t
    have hpre := @isPrefixOf_cons_eq_false R hd a (x' ++ R ++ t) hhead hne
    have hncond :
        ¬(R.isPrefixOf (a :: (x' ++ R ++ t)) = true ∧ R ≠ []) := by
      intro hc
      rw [hpre] at hc
      exact absurd hc.1 (by simp)
    rw [pyReplace, dif_neg hncond]
    have hREmpty : R.isEmpty = false := by
      cases hR : R with
      | nil => rw [hR] at hhead; cases hhead
      | cons r rt => rfl
    rw [hREmpty]
    simp only [Bool.false_eq_true, if_false]
    rw [ih t hmem']
    simp

theorem pyReplace_interRoot {R P : PyStr} {hd : Char}
    (hhead : R.head? = some hd) :
    ∀ (parts : List PyStr), (∀ p ∈ parts, hd ∉ p) →
      pyReplace R P (interRoot R parts) = interRoot P parts := by
  intro parts
  induction parts with
  | nil =>
    intro _
    show pyReplace R P [] = []
    rw [pyReplace]
    have : R.isEmpty = false := by
      cases hR : R with
      | nil => rw [hR] at hhead; cases hhead
      | cons r rt => rfl
    rw [this]
    rfl
  | cons p rest ih =>
    intro hparts
    cases rest with
    | nil =>
      show pyReplace R P p = p
      exact pyReplace_eq_self
        (hasSubstr_eq_false_of_head_not_mem hhead
          (hparts p (List.mem_singleton.mpr rfl)))
    | cons q rest' =>
      show pyReplace R P (p ++ R ++ interRoot R (q :: rest'))
        = p ++ P ++ interRoot P (q :: rest')
      rw [pyReplace_skip_part hhead p (interRoot R (q :: rest'))
        (hparts p (List.mem_cons_self ..))]
      rw [ih (fun r hr => hparts r (List.mem_cons_of_mem p hr))]

theorem pyRstrip_eq_self {R : PyStr} (hlast : R.getLast? ≠ some '/') :
    pyRstrip '/' R = R := by
  unfold pyRstrip
  cases hr : R.reverse with
  | nil =>
    have : R = [] := by
      have := congrArg List.reverse hr
      simpa using this
    subst this
    rfl
  | cons c t =>
    have hc : R.getLast? = some c := by
      rw [← List.head?_reverse, hr]
      rfl
    have hne : ¬(c = '/') := fun he => hlast (by rw [hc, he])
    rw [List.dropWhile_cons]
    rw [if_neg (by simpa using hne)]
    rw [← hr, List.reverse_reverse]

theorem normalizeVariants_eq {R : PyStr} (hnorm : posixNormpath R = R)
    (hlast : R.getLast? ≠ some '/') :
    normalizeVariants R = [R, R ++ ['/']] := by
  have hrstrip := pyRstrip_eq_self hlast
  unfold normalizeVariants
  rw [hnorm, hrstrip]
  have hvne : ¬(R ++ ['/'] = R) := by
    intro h
    have := congrArg List.length h
    simp at this
  have hfil1 : [R, R ++ ['/'], R ++ ['/']].filter
      (fun y => decide (y ≠ R)) = [R ++ ['/'], R ++ ['/']] := by
    simp [List.filter_cons, hvne]
  have hfil2 : [R ++ ['/']].filter
      (fun y => decide (y ≠ R ++ ['/'])) = [] := by
    simp [List.filter_cons]
  rw [dedupKeepFirst, hfil1, dedupKeepFirst, hfil2, dedupKeepFirst]

theorem head_append_of_ne_nil {R x : PyStr} (h : R ≠ []) :
    (R ++ x).head? = R.head? := by
  cases R with
  | nil => exact absurd rfl h
  | cons a t => rfl

theorem replaceRoot_interRoot {R : PyStr} (hhead : R.head? = some '/')
    (hnorm : posixNormpath R = R) (hlast : R.getLast? ≠ some '/')
    (parts : List PyStr) (hparts : ∀ p ∈ parts, '/' ∉ p) :
    replaceRoot (interRoot R parts) (some R)
      = interRoot projectRootToken parts := by
  have hne : R ≠ [] := by
    intro h
    rw [h] at hhead
    cases hhead
  have hnotEmpty : R.isEmpty = false := by
    cases hR : R with
    | nil => exact absurd hR hne
    | cons a t => rfl
  simp only [replaceRoot]
  rw [hnotEmpty]
  simp only [Bool.false_eq_true, if_false]
  rw [normalizeVariants_eq hnorm hlast]
  simp only [List.foldl_cons, List.foldl_nil]
  rw [if_neg hlast, pyReplace_interRoot hhead parts hparts]
  have hlast2 : (R ++ ['/']).getLast? = some '/' := by
    simp
  rw [if_pos hlast2]
  apply pyReplace_eq_self
  apply @hasSubstr_eq_false_of_head_not_mem _ _ '/'
  · rw [head_append_of_ne_nil hne]
    exact hhead
  · intro hmem
    rcases mem_interRoot hmem with h | ⟨p, hp, hcp⟩
    · revert h
      decide
    · exact hparts p hp hcp

theorem replaceRoot_eq_self_of_no_occurrence {R : PyStr}
    (hhead : R.head? = some '/') (hnorm : posixNormpath R = R)
    (hlast : R.getLast? ≠ some '/') (s : PyStr)
    (hno : hasSubstr R s = false) :
    replaceRoot s (some R) = s := by
  have hne : R ≠ [] := by
    intro h
    rw [h] at hhead
    cases hhead
  have hnotEmpty : R.isEmpty = false := by
    cases hR : R with
    | nil => exact absurd hR hne
    | cons a t => rfl
  simp only [replaceRoot]
  rw [hnotEmpty]
  simp only [Bool.false_eq_true, if_false]
  rw [normalizeVariants_eq hnorm hlast]
  simp only [List.foldl_cons, List.foldl_nil]
  rw [if_neg hlast, pyReplace_eq_self hno]
  have hlast2 : (R ++ ['/']).getLast? = some '/' := by
    simp
  rw [if_pos hlast2, pyReplace_eq_self (hasSubstr_append_eq_false hno)]

theorem replaceRoot_eq_self_of_no_slash {R : PyStr}
    (hhead : R.head? = some '/') (hnorm : posixNormpath R = R)
    (hlast : R.getLast? ≠ some '/') (s : PyStr) (hs : '/' ∉ s) :
    replaceRoot s (some R) = s :=
  replaceRoot_eq_self_of_no_occurrence hhead hnorm hlast s
    (hasSubstr_eq_false_of_head_not_mem hhead hs)

theorem slash_not_mem_interRoot_token {parts : List PyStr}
    (hparts : ∀ p ∈ parts, '/' ∉ p) :
    '/' ∉ interRoot projectRootToken parts := by
  intro hmem
  rcases mem_interRoot hmem with h | ⟨p, hp, hcp⟩
  · revert h
    decide
  · exact hparts p hp hcp

/-- Claim C5: two runtime capture sets whose baseline metadata reports
success, whose return codes and timeout flags agree, and whose stdout
and stderr differ only in occurrences of each run's own absolute,
normalized project-root path (the streams are a common template
intercalated with the respective root; the pieces are path-free and the
baseline root does not otherwise occur in the current run's streams)
compare as equal: `_compare_runtime_outputs` returns a match, because
`_normalize_runtime_output_text` rewrites both roots to
`<PROJECT_ROOT>` on both sides before comparison. -/
theorem compare_equal_modulo_project_roots
    (Rb Rc : PyStr) (cmdB cmdC : Option PyStr) (rcode : Option Int)
    (tflag sflag : Bool) (outParts errParts : List PyStr)
    (hRbHead : Rb.head? = some '/') (hRbNorm : posixNormpath Rb = Rb)
    (hRbLast : Rb.getLast? ≠ some '/')
    (hRcHead : Rc.head? = some '/') (hRcNorm : posixNormpath Rc = Rc)
    (hRcLast : Rc.getLast? ≠ some '/')
    (hOut : ∀ p ∈ outParts, '/' ∉ p) (hErr : ∀ p ∈ errParts, '/' ∉ p)
    (hnoOut : hasSubstr Rb (interRoot Rc outParts) = false)
    (hnoErr : hasSubstr Rb (interRoot Rc errParts) = false) :
    compareRuntimeOutputs
      { meta := { command := cmdC, project_root := some Rc, success := sflag,
                  returncode := rcode, timed_out := tflag },
        stdout := interRoot Rc outParts, stderr := interRoot Rc errParts }
      { meta := { command := cmdB, project_root := some Rb, success := true,
                  returncode := rcode, timed_out := tflag },
        stdout := interRoot Rb outParts, stderr := interRoot Rb errParts }
      = (true, none) := by
  have hbOut : normalizeRuntimeOutputText (interRoot Rb outParts)
      (some Rb) (some Rc) = interRoot projectRootToken outParts := by
    unfold normalizeRuntimeOutputText
    rw [replaceRoot_interRoot hRbHead hRbNorm hRbLast outParts hOut]
    exact replaceRoot_eq_self_of_no_slash hRcHead hRcNorm hRcLast _
      (slash_not_mem_interRoot_token hOut)
  have hcOut : normalizeRuntimeOutputText (interRoot Rc outParts)
      (some Rb) (some Rc) = interRoot projectRootToken outParts := by
    unfold normalizeRuntimeOutputText
    rw [replaceRoot_eq_self_of_no_occurrence hRbHead hRbNorm hRbLast _ hnoOut]
    exact replaceRoot_interRoot hRcHead hRcNorm hRcLast outParts hOut
  have hbErr : normalizeRuntimeOutputText (interRoot Rb errParts)
      (some Rb) (some Rc) = interRoot projectRootToken errParts := by
    unfold normalizeRuntimeOutputText
    rw [replaceRoot_interRoot hRbHead hRbNorm hRbLast errParts hErr]
    exact replaceRoot_eq_self_of_no_slash hRcHead hRcNorm hRcLast _
      (slash_not_mem_interRoot_token hErr)
  have hcErr : normalizeRuntimeOutputText (interRoot Rc errParts)
      (some Rb) (some Rc) = interRoot projectRootToken errParts := by
    unfold normalizeRuntimeOutputText
    rw [replaceRoot_eq_self_of_no_occurrence hRbHead hRbNorm hRbLast _ hnoErr]
    exact replaceRoot_interRoot hRcHead hRcNorm hRcLast errParts hErr
  simp [compareRuntimeOutputs, hbOut, hcOut, hbErr, hcErr]

theorem compare_equal_modulo_project_roots_witness :
    compareRuntimeOutputs
      { meta := { command := some "python main.py".toList,
                  project_root := some "/tmp/cur".toList, success := true,
                  returncode := some 0, timed_out := false },
        stdout := interRoot "/tmp/cur".toList
          ["Loaded ".toList, " done".toList],
        stderr := interRoot "/tmp/cur".toList [] }
      { meta := { command := some "python main.py".toList,
                  project_root := some "/tmp/base".toList, success := true,
                  returncode := some 0, timed_out := false },
        stdout := interRoot "/tmp/base".toList
          ["Loaded ".toList, " done".toList],
        stderr := interRoot "/tmp/base".toList [] }
      = (true, none) :=
  compare_equal_modulo_project_roots
    "/tmp/base".toList "/tmp/cur".toList
    (some "python main.py".toList) (some "python main.py".toList)
    (some 0) false true
    ["Loaded ".toList, " done".toList] []
    (by decide) (by decide) (by decide)
    (by decide) (by decide) (by decide)
    (by decide) (by decide) (by decide) (by decide)

/-! ## Dependency installation with hash caching
(`src/runtime_validation.py` lines 793-897)

`_ensure_dependencies_installed` touches the world through
`_load_marker`/`_save_marker`, `os.path` probes, `_hash_file` and
`_run_subprocess`; these are a `DepInstallWorld` oracle.  The outcome
records the subprocess calls performed and the log entries appended, so
"performs no installation subprocess" is a statement about the trace. -/

/-- A `_run_subprocess` result as the function reads it. -/
structure StepResult where
  returncode : Int
  timedOut : Bool
deriving Repr, DecidableEq

/-- The marker file `ml_upgrader_marker.json`. -/
structure MarkerData where
  requirements_hashes : List (String × Option String)
  editable_installed : Bool
deriving Repr, DecidableEq

/-- World oracle for one `_ensure_dependencies_installed` call. -/
structure DepInstallWorld where
  loadMarker : Option MarkerData
  requirementFilesArg : List String
  abspath : String → String
  isFile : String → Bool
  hashFile : String → Option String
  setupPyExists : Bool
  pyprojectExists : Bool
  toolchainResult : StepResult
  installResult : String → StepResult
  fallbackPackage : String → Option String
  fallbackResult : String → StepResult
  editableResult : StepResult

inductive DepCall
  | toolchain
  | installReq (path : String)
  | fallback (pkg : String)
  | editable
deriving Repr, DecidableEq

inductive DepLogEntry
  | skip (message : String)
  | step (call : DepCall)
deriving Repr, DecidableEq

structure DepInstallOutcome where
  ok : Bool
  savedMarker : Option MarkerData
  calls : List DepCall
  logs : List DepLogEntry
deriving Repr, DecidableEq

/-- The dedup-and-filter pass of lines 810-818: track `seen` absolute
paths; keep existing files, in first-seen order. -/
def normalizeReqFiles (abspath : String → String) (isFile : String → Bool) :
    List String → List String → List String
  | _, [] => []
  | seen, p :: rest =>
    let a := abspath p
    if a ∈ seen then normalizeReqFiles abspath isFile seen rest
    else if isFile a then a :: normalizeReqFiles abspath isFile (a :: seen) rest
    else normalizeReqFiles abspath isFile (a :: seen) rest

/-- First-match lookup in a hash dict. -/
def lookupHash (d : List (String × Option String)) (k : String) :
    Option (Option String) :=
  (d.find? (fun p => p.1 == k)).map Prod.snd

/-- Python `dict` equality (`requirement_hashes != marker_hashes`):
same keys, same values, order-insensitive. -/
def pyDictEq (d1 d2 : List (String × Option String)) : Bool :=
  d1.all (fun kv => decide (lookupHash d2 kv.1 = some kv.2)) &&
  d2.all (fun kv => decide (lookupHash d1 kv.1 = some kv.2))

/-- The requirement files considered (lines 805-808): the argument list
with `<project_root>/requirements.txt` inserted first when present. -/
def reqFilesOf (w : DepInstallWorld) (projectRoot : String) : List String :=
  if w.isFile (projectRoot ++ "/requirements.txt") then
    (projectRoot ++ "/requirements.txt") :: w.requirementFilesArg
  else w.requirementFilesArg

def normalizedFilesOf (w : DepInstallWorld) (projectRoot : String) :
    List String :=
  normalizeReqFiles w.abspath w.isFile [] (reqFilesOf w projectRoot)

/-- `requirement_hashes` (lines 820-822), in file order. -/
def requirementHashesOf (w : DepInstallWorld) (projectRoot : String) :
    List (String × Option String) :=
  (normalizedFilesOf w projectRoot).map (fun p => (p, w.hashFile p))

/-- `current_marker.get("requirements_hashes", {})` (line 823). -/
def markerHashesOf (w : DepInstallWorld) : List (String × Option String) :=
  match w.loadMarker with
  | some m => m.requirements_hashes
  | none => []

/-- `bool(current_marker.get("editable_installed"))` (line 830). -/
def editableInstalledOf (w : DepInstallWorld) : Bool :=
  match w.loadMarker with
  | some m => m.editable_installed
  | none => false

/-- `run_editable` (line 831). -/
def runEditableOf (w : DepInstallWorld) (forceReinstall : Bool) : Bool :=
  (w.setupPyExists || w.pyprojectExists) &&
    (forceReinstall || !editableInstalledOf w)

/-- The per-requirements-file install loop (lines 850-873), with
its `break`/`continue` structure and the unsatisfiable-pin fallback. -/
def installLoop (w : DepInstallWorld) : List String → Bool × List DepCall
  | [] => (true, [])
  | p :: rest =>
    let res := w.installResult p
    if res.timedOut then (false, [DepCall.installReq p])
    else if res.returncode != 0 then
      match w.fallbackPackage p with
      | some pkg =>
        let fres := w.fallbackResult pkg
        if fres.timedOut || fres.returncode != 0 then
          (false, [DepCall.installReq p, DepCall.fallback pkg])
        else
          let t := installLoop w rest
          (t.1, DepCall.installReq p :: DepCall.fallback pkg :: t.2)
      | none => (false, [DepCall.installReq p])
    else
      let t := installLoop w rest
      (t.1, DepCall.installReq p :: t.2)

/-- `_ensure_dependencies_installed` (lines 793-897). -/
def ensureDependenciesInstalled (w : DepInstallWorld)
    (projectRoot : String) (forceReinstall : Bool) : DepInstallOutcome :=
  let normalizedFiles := normalizedFilesOf w projectRoot
  let requirementHashes := requirementHashesOf w projectRoot
  let installNeeded :=
    forceReinstall || !pyDictEq requirementHashes (markerHashesOf w)
  let editableInstalled := editableInstalledOf w
  let runEditable := runEditableOf w forceReinstall
  if !installNeeded && !runEditable then
    { ok := true, savedMarker := none, calls := [],
      logs := [DepLogEntry.skip "Dependencies already up to date"] }
  else if w.toolchainResult.timedOut || w.toolchainResult.returncode != 0 then
    { ok := false, savedMarker := none, calls := [DepCall.toolchain],
      logs := [DepLogEntry.step DepCall.toolchain] }
  else
    let loopRes :=
      if installNeeded && !normalizedFiles.isEmpty then
        installLoop w normalizedFiles
      else (true, [])
    let skipLog : List DepLogEntry :=
      if installNeeded && normalizedFiles.isEmpty then
        [DepLogEntry.skip "No requirements files discovered"]
      else []
    let runEd := runEditable && loopRes.1
    let edFail := runEd &&
      (w.editableResult.timedOut || w.editableResult.returncode != 0)
    let success := loopRes.1 && !edFail
    { ok := success,
      savedMarker :=
        if success then
          some { requirements_hashes := requirementHashes,
                 editable_installed := runEditable || editableInstalled }
        else none,
      calls := DepCall.toolchain :: loopRes.2 ++
        (if runEd then [DepCall.editable] else []),
      logs := DepLogEntry.step DepCall.toolchain ::
        loopRes.2.map DepLogEntry.step ++ skipLog ++
        (if runEd then [DepLogEntry.step DepCall.editable] else []) }

theorem normalizeReqFiles_fresh (abspath : String → String)
    (isFile : String → Bool) :
    ∀ (l seen : List String),
      (normalizeReqFiles abspath isFile seen l).Nodup ∧
      ∀ a ∈ normalizeReqFiles abspath isFile seen l, a ∉ seen := by
  intro l
  induction l with
  | nil => intro seen; exact ⟨List.nodup_nil, by simp [normalizeReqFiles]⟩
  | cons p rest ih =>
    intro seen
    simp only [normalizeReqFiles]
    by_cases hseen : abspath p ∈ seen
    · rw [if_pos hseen]
      exact ih seen
    · rw [if_neg hseen]
      by_cases hfile : isFile (abspath p) = true
      · rw [if_pos hfile]
        obtain ⟨hnd, hfresh⟩ := ih (abspath p :: seen)
        refine ⟨List.nodup_cons.mpr ⟨?_, hnd⟩, ?_⟩
        · intro hmem
          exact hfresh _ hmem (List.mem_cons_self ..)
        · intro a ha
          rcases List.mem_cons.mp ha with rfl | ha'
          · exact hseen
          · intro hs
            exact hfresh a ha' (List.mem_cons_of_mem _ hs)
      · rw [if_neg hfile]
        obtain ⟨hnd, hfresh⟩ := ih (abspath p :: seen)
        exact ⟨hnd, fun a ha hs => hfresh a ha (List.mem_cons_of_mem _ hs)⟩

theorem requirementHashes_keys_nodup (w : DepInstallWorld)
    (projectRoot : String) :
    ((requirementHashesOf w projectRoot).map Prod.fst).Nodup := by
  unfold requirementHashesOf
  rw [List.map_map]
  have : (Prod.fst ∘ fun p => (p, w.hashFile p)) = id := rfl
  rw [this, List.map_id]
  exact (normalizeReqFiles_fresh w.abspath w.isFile
    (reqFilesOf w projectRoot) []).1

theorem lookupHash_eq_of_mem {d : List (String × Option String)}
    (hk : (d.map Prod.fst).Nodup) {k : String} {v : Option String}
    (h : (k, v) ∈ d) : lookupHash d k = some v := by
  induction d with
  | nil => cases h
  | cons p rest ih =>
    obtain ⟨k', v'⟩ := p
    simp only [List.map_cons, List.nodup_cons] at hk
    rcases List.mem_cons.mp h with heq | hmem
    · injection heq with h1 h2
      subst h1
      subst h2
      simp [lookupHash, List.find?_cons]
    · have hne : (k' == k) = false := by
        rw [beq_eq_false_iff_ne]
        intro he
        exact hk.1 (he ▸ List.mem_map_of_mem Prod.fst hmem)
      have := ih hk.2 hmem
      simpa [lookupHash, List.find?_cons, hne] using this

theorem pyDictEq_refl {d : List (String × Option String)}
    (hk : (d.map Prod.fst).Nodup) : pyDictEq d d = true := by
  have hall : d.all (fun kv => decide (lookupHash d kv.1 = some kv.2)) = true := by
    rw [List.all_eq_true]
    intro kv hkv
    rw [decide_eq_true_eq]
    exact lookupHash_eq_of_mem hk (by simpa using hkv)
  unfold pyDictEq
  rw [hall, Bool.true_and]

theorem ensure_savedMarker_spec (w : DepInstallWorld) (projectRoot : String)
    (forceReinstall : Bool) :
    (ensureDependenciesInstalled w projectRoot forceReinstall).savedMarker
        = none ∨
      (ensureDependenciesInstalled w projectRoot forceReinstall).savedMarker
        = some { requirements_hashes := requirementHashesOf w projectRoot,
                 editable_installed :=
                   runEditableOf w forceReinstall || editableInstalledOf w } := by
  simp only [ensureDependenciesInstalled]
  split_ifs <;> first
    | exact Or.inl rfl
    | exact Or.inr rfl

theorem ensure_calls_ne_nil (w : DepInstallWorld) (projectRoot : String)
    (forceReinstall : Bool)
    (h : (ensureDependenciesInstalled w projectRoot forceReinstall).savedMarker
      ≠ none) :
    (ensureDependenciesInstalled w projectRoot forceReinstall).calls ≠ [] := by
  simp only [ensureDependenciesInstalled] at h ⊢
  split_ifs at h ⊢ <;> simp_all

/-- Claim C7: if a first `_ensure_dependencies_installed` call succeeds
and records the marker, a second call on the same unchanged project
(same manifests, hashes and editable sources; marker as just saved;
`force_reinstall` false in both runs) performs no package-installation
subprocess at all — its call trace is empty and its log is exactly the
"Dependencies already up to date" skip entry — and returns success,
while the first run did perform the install step (nonempty call trace):
across the two runs the install step runs exactly once. -/
theorem dependency_install_skipped_on_second_run
    (w : DepInstallWorld) (projectRoot : String)
    (h1ok : (ensureDependenciesInstalled w projectRoot false).ok = true)
    (h1rec :
      (ensureDependenciesInstalled w projectRoot false).savedMarker ≠ none) :
    (ensureDependenciesInstalled
        { w with loadMarker :=
            (ensureDependenciesInstalled w projectRoot false).savedMarker }
        projectRoot false).ok = true ∧
    (ensureDependenciesInstalled
        { w with loadMarker :=
            (ensureDependenciesInstalled w projectRoot false).savedMarker }
        projectRoot false).calls = [] ∧
    (ensureDependenciesInstalled
        { w with loadMarker :=
            (ensureDependenciesInstalled w projectRoot false).savedMarker }
        projectRoot false).logs
      = [DepLogEntry.skip "Dependencies already up to date"] ∧
    (ensureDependenciesInstalled w projectRoot false).calls ≠ [] := by
  rcases ensure_savedMarker_spec w projectRoot false with hnone | hsome
  · exact absurd hnone h1rec
  · set run1 := ensureDependenciesInstalled w projectRoot false with hrun1
    set w2 : DepInstallWorld := { w with loadMarker := run1.savedMarker }
      with hw2
    have hload : w2.loadMarker = run1.savedMarker := rfl
    have hmarker2 : markerHashesOf w2 = requirementHashesOf w projectRoot := by
      unfold markerHashesOf
      rw [hload, hsome]
    have hreq2 : requirementHashesOf w2 projectRoot
        = requirementHashesOf w projectRoot := rfl
    have heq : pyDictEq (requirementHashesOf w2 projectRoot)
        (markerHashesOf w2) = true := by
      rw [hreq2, hmarker2]
      exact pyDictEq_refl (requirementHashes_keys_nodup w projectRoot)
    have hedInst2 : editableInstalledOf w2
        = (runEditableOf w false || editableInstalledOf w) := by
      unfold editableInstalledOf
      rw [hload, hsome]
      rfl
    have hrunEd2 : runEditableOf w2 false = false := by
      have hsp : w2.setupPyExists = w.setupPyExists := rfl
      have hpp : w2.pyprojectExists = w.pyprojectExists := rfl
      unfold runEditableOf
      rw [hedInst2, hsp, hpp]
      unfold runEditableOf
      cases w.setupPyExists <;> cases w.pyprojectExists <;>
        cases editableInstalledOf w <;> rfl
    have hrun2 : ensureDependenciesInstalled w2 projectRoot false
        = { ok := true, savedMarker := none, calls := [],
            logs := [DepLogEntry.skip "Dependencies already up to date"] } := by
      simp only [ensureDependenciesInstalled]
      rw [if_pos (by rw [heq, hrunEd2]; rfl)]
    exact ⟨by rw [hrun2], by rw [hrun2], by rw [hrun2],
      ensure_calls_ne_nil w projectRoot false h1rec⟩

/-- A concrete world for the caching scenario: a fresh environment (no
marker), one requirements file, all subprocesses succeed. -/
def depWitnessWorld : DepInstallWorld :=
  { loadMarker := none,
    requirementFilesArg := [],
    abspath := fun s => s,
    isFile := fun s => s == "/proj/requirements.txt",
    hashFile := fun _ => some "3f2a",
    setupPyExists := false,
    pyprojectExists := false,
    toolchainResult := { returncode := 0, timedOut := false },
    installResult := fun _ => { returncode := 0, timedOut := false },
    fallbackPackage := fun _ => none,
    fallbackResult := fun _ => { returncode := 0, timedOut := false },
    editableResult := { returncode := 0, timedOut := false } }

theorem dependency_install_skipped_on_second_run_witness :
    (ensureDependenciesInstalled
        { depWitnessWorld with loadMarker :=
            (ensureDependenciesInstalled depWitnessWorld "/proj" false).savedMarker }
        "/proj" false).ok = true ∧
    (ensureDependenciesInstalled
        { depWitnessWorld with loadMarker :=
            (ensureDependenciesInstalled depWitnessWorld "/proj" false).savedMarker }
        "/proj" false).calls = [] ∧
    (ensureDependenciesInstalled
        { depWitnessWorld with loadMarker :=
            (ensureDependenciesInstalled depWitnessWorld "/proj" false).savedMarker }
        "/proj" false).logs
      = [DepLogEntry.skip "Dependencies already up to date"] ∧
    (ensureDependenciesInstalled depWitnessWorld "/proj" false).calls ≠ [] :=
  dependency_install_skipped_on_second_run depWitnessWorld "/proj"
    (by decide) (by decide)

end CrossVersioning
